import Mathlib

/-!
# A verification development for the `slapql` WIT-to-GraphQL converter

This file gives a shallow embedding of `src/converter.ts` — the
type-conversion engine that turns a resolved WIT type graph into a GraphQL
schema — and proves (or refutes) the specification's claims about it.

Modelling conventions:

* JavaScript object identity is modelled with an explicit heap: every
  `new GraphQL*Type(...)` allocation appends a `GObjDef` to `BuildState.heap`
  and yields a fresh `GType.ref` id.  Two schema-type values are
  reference-equal exactly when the `GType` values are equal (the four scalar
  singletons `GraphQLString`/`GraphQLInt`/`GraphQLFloat`/`GraphQLBoolean` are
  module-level singletons in graphql-js and are modelled as scalar
  constructors).
* JavaScript `Map.set` / object-key insertion update the value of an existing
  key in place and append new keys; `mapSet`/`objInsert` mirror that.
* The two converter functions `convertWitTypeToGraphQLOutput` and
  `convertWitTypeToGraphQLInput` in the source are textually parallel and
  differ only in which cache they use and which object kinds they allocate;
  they are embedded as one function `convertWitTypeToGraphQL` taking the
  same `isInput` flag the source's shared `createRecordType` takes, with
  wrappers named after the two source functions.
* The converter's recursion (and the `while` loop of `resolveTypeIndex`)
  need not terminate on adversarial graphs, so every recursive entry point
  takes explicit fuel; exhaustion is the distinguished error
  `ConvError.outOfFuel`, which the source would exhibit as non-termination /
  stack overflow.
* Thrown `Error`s become `Except ConvError`; the error constructors name the
  distinct `throw new Error(...)` sites of the source.
-/

namespace Slapql

/-! ## Casing transforms (converter.ts lines 20–34) -/

/-- Is `c` an ASCII lowercase letter, i.e. does it match the regex class
`[a-z]`? -/
def isAsciiLower (c : Char) : Bool :=
  'a' ≤ c && c ≤ 'z'

/-- The global regex replacement `str.replace` with pattern `-([a-z])`
(flag `g`), replacing each match with the captured letter uppercased:
scanning left to right, a hyphen immediately followed by a lowercase letter
is replaced by that letter uppercased; matches do not overlap. -/
def camelReplace : List Char → List Char
  | [] => []
  | [c] => [c]
  | c :: d :: rest =>
    if c = '-' ∧ isAsciiLower d = true then d.toUpper :: camelReplace rest
    else c :: camelReplace (d :: rest)

/-- `toCamelCase` (converter.ts line 21): kebab-case to camelCase, used for
field and function names. -/
def toCamelCase (str : String) : String :=
  match camelReplace str.data with
  | [] => ""
  | c :: cs => String.mk (c.toLower :: cs)

/-- `toPascalCase` (converter.ts line 29): kebab-case to PascalCase, used for
type names. -/
def toPascalCase (str : String) : String :=
  match camelReplace str.data with
  | [] => ""
  | c :: cs => String.mk (c.toUpper :: cs)

/-! ## The WIT type-graph data model (converter.ts lines 36–120) -/

/-- A `Type` reference: either one of the primitive tag strings or a node
index into `resolved.types`.  The source type is the union of the 14 tag
string literals and `number`; the tags arrive from parsed JSON, so the tag
is modelled as an arbitrary `String` (the converter's `switch` has a
`default` branch for tags outside the table). -/
inductive Ty where
  | prim (tag : String)
  | idx (n : Nat)
deriving DecidableEq, Repr

/-- A record field: `{ name, type, docs? }`. -/
structure Field where
  name : String
  type : Ty
  docs : Option String := none
deriving Repr

/-- A flags member: `{ name, docs? }`. -/
structure Flag where
  name : String
  docs : Option String := none
deriving Repr

/-- A variant case: `{ name, type?, docs? }`. -/
structure Case where
  name : String
  type : Option Ty
  docs : Option String := none
deriving Repr

/-- An enum case: `{ name, docs? }`. -/
structure EnumCase where
  name : String
  docs : Option String := none
deriving Repr

/-- `TypeDefKind` (converter.ts lines 76–89).  The source encodes the kind as
a union of singleton-keyed objects plus the strings `"resource"`; the
constructor `aliasTy` is the source's `{ type: Type }` arm. -/
inductive TypeDefKind where
  | record (fields : List Field)
  | resource
  | handle (own : Option Nat) (borrow : Option Nat)
  | flags (flags : List Flag)
  | tuple (types : List Ty)
  | variant (cases : List Case)
  | enum (cases : List EnumCase)
  | option (t : Ty)
  | result (ok : Option Ty) (err : Option Ty)
  | list (t : Ty)
  | future (t : Option Ty)
  | stream (t : Option Ty)
  | aliasTy (t : Ty)
deriving Repr

/-- `TypeOwner` (converter.ts line 91). -/
inductive TypeOwner where
  | world (n : Nat)
  | interface (n : Nat)
  | null
deriving Repr

/-- `TypeDef` (converter.ts lines 93–99). -/
structure TypeDef where
  name : Option String
  kind : TypeDefKind
  owner : TypeOwner := .null
  docs : Option String := none
  stability : Option String := none
deriving Repr

/-- `FunctionKind` (converter.ts lines 101–108); never inspected by the
converter. -/
inductive FunctionKind where
  | freestanding
  | asyncFreestanding
  | method (n : Nat)
  | asyncMethod (n : Nat)
  | staticFn (n : Nat)
  | asyncStatic (n : Nat)
  | constructorFn (n : Nat)
deriving Repr

/-- One function parameter: `{ name, type }`. -/
structure Param where
  name : String
  type : Ty
deriving Repr

/-- `Function` (converter.ts lines 110–120). -/
structure Func where
  name : String
  kind : FunctionKind := .freestanding
  params : List Param
  result : Option Ty := none
  docs : Option String := none
deriving Repr

/-- A value of a world's `exports` record.  The converter only consumes
entries that are objects with a `function` key; everything else (interface
or type exports) is skipped. -/
inductive WorldItem where
  | function (f : Func)
  | interface (n : Nat)
  | type (t : Ty)
deriving Repr

/-- A world: the converter reads only its `exports`, in insertion order
(`Object.entries`). -/
structure World where
  name : String := ""
  exports : List (String × WorldItem)
deriving Repr

/-- The resolved type graph handed to `createGraphQLSchema`.  `types` is an
array indexed by node id (`resolved.types[idx]` is `undefined` out of
range, modelled by `types[idx]?`). -/
structure Resolved where
  types : List TypeDef
  worlds : List World
deriving Repr

/-! ## The GraphQL-side model: scalars, a heap of allocated objects -/

/-- A GraphQL schema type value.  The four scalars are the graphql-js
module-level singletons; `ref i` is the object allocated at heap index
`i`. -/
inductive GType where
  | gString
  | gInt
  | gFloat
  | gBoolean
  | ref (id : Nat)
deriving DecidableEq, Repr

/-- What a heap-allocated graphql-js object is: a `GraphQLObjectType`, a
`GraphQLInputObjectType`, a `GraphQLList` or a `GraphQLNonNull`. -/
inductive GObjDef where
  | objectType (name : String) (fields : List (String × GType))
  | inputObjectType (name : String) (fields : List (String × GType))
  | listType (ofType : GType)
  | nonNullType (ofType : GType)
deriving DecidableEq, Repr

/-- The private state of one `createGraphQLSchema` call: the allocation heap
plus the two per-direction caches (converter.ts lines 153–154). -/
structure BuildState where
  heap : List GObjDef
  outputTypeCache : List (Nat × GType)
  inputTypeCache : List (Nat × GType)
deriving DecidableEq, Repr

/-- The empty state at the start of a schema build. -/
def BuildState.init : BuildState :=
  { heap := [], outputTypeCache := [], inputTypeCache := [] }

/-- Allocate a fresh graphql-js object (`new GraphQL...`): returns the
reference and the grown heap. -/
def BuildState.alloc (st : BuildState) (o : GObjDef) : GType × BuildState :=
  (.ref st.heap.length, { st with heap := st.heap ++ [o] })

/-- `Map.get` on an association list. -/
def mapGet (m : List (Nat × GType)) (k : Nat) : Option GType :=
  match m with
  | [] => none
  | (k', v) :: rest => if k = k' then some v else mapGet rest k

/-- `Map.set`: update an existing key's value in place, else append. -/
def mapSet (m : List (Nat × GType)) (k : Nat) (v : GType) :
    List (Nat × GType) :=
  match m with
  | [] => [(k, v)]
  | (k', v') :: rest =>
    if k = k' then (k', v) :: rest else (k', v') :: mapSet rest k v

/-- JavaScript object-property assignment `o[k] = v` on an insertion-ordered
association list: overwrite an existing key in place, else append. -/
def objInsert {α : Type} (m : List (String × α)) (k : String) (v : α) :
    List (String × α) :=
  match m with
  | [] => [(k, v)]
  | (k', v') :: rest =>
    if k = k' then (k', v) :: rest else (k', v') :: objInsert rest k v

/-- Property lookup on an insertion-ordered association list. -/
def objGet {α : Type} (m : List (String × α)) (k : String) : Option α :=
  match m with
  | [] => none
  | (k', v) :: rest => if k = k' then some v else objGet rest k

/-- Read the heap object a `GType` refers to (scalars are not heap
objects). -/
def heapObj (st : BuildState) : GType → Option GObjDef
  | .ref i => st.heap[i]?
  | _ => none

/-- Read the output-direction cache of `st`. -/
def BuildState.getOut (st : BuildState) (k : Nat) : Option GType :=
  mapGet st.outputTypeCache k

/-- Read the input-direction cache of `st`. -/
def BuildState.getIn (st : BuildState) (k : Nat) : Option GType :=
  mapGet st.inputTypeCache k

/-- Read the direction-selected cache, as `createRecordType` does via its
`isInput` flag. -/
def BuildState.getCache (st : BuildState) (isInput : Bool) (k : Nat) :
    Option GType :=
  if isInput then st.getIn k else st.getOut k

/-- Write the direction-selected cache. -/
def BuildState.setCache (st : BuildState) (isInput : Bool) (k : Nat)
    (v : GType) : BuildState :=
  if isInput then { st with inputTypeCache := mapSet st.inputTypeCache k v }
  else { st with outputTypeCache := mapSet st.outputTypeCache k v }

/-! ## Errors -/

/-- The distinct `throw new Error(...)` sites of the converter, plus the
fuel-exhaustion marker standing for non-termination of the source. -/
inductive ConvError where
  /-- "Unsupported primitive type: `tag`" (the `default` switch branch). -/
  | unsupportedPrimitive (tag : String)
  /-- "Type index `idx` not found in resolved types" (`getWitType`). -/
  | unresolvedType (idx : Nat)
  /-- "Unsupported WIT type kind: ..." (the final `else`). -/
  | unsupportedKind
  /-- "Expected record type, got: ..." (`createRecordType`'s guard). -/
  | expectedRecord
  /-- An empty tuple: the source would build `new GraphQLList(undefined)`
  from `tupleTypes[0]`, which graphql-js rejects; modelled as a distinct
  failure. -/
  | emptyTuple
  /-- "Expected a primitive type string, got: ..." — the guard after the
  primitive switch; unreachable, since `resolveTypeIndex` returns
  `undefined` only for primitive tags. -/
  | expectedPrimitiveString
  /-- `resolved.worlds[0]` is `undefined` (no worlds): the source throws a
  `TypeError` reading `.exports` of `undefined`. -/
  | noWorld
  /-- Fuel exhausted: the source diverges / overflows the stack here. -/
  | outOfFuel
deriving DecidableEq, Repr

/-! ## Alias resolution (converter.ts lines 122–146) -/

/-- The result of `resolveTypeIndex`: `undefined` (the reference is a
primitive tag) or a node id. -/
inductive ResolveResult where
  | primitive
  | node (idx : Nat)
deriving DecidableEq, Repr

/-- The `while` loop of `resolveTypeIndex`: follow `alias` nodes.  `orig` is
the function's original argument; an alias whose target is a primitive tag
returns `orig`, a missing or non-alias node returns the current index.
`none` is fuel exhaustion (the source loops forever on an alias cycle). -/
def resolveLoop (types : List TypeDef) (orig : Nat) :
    Nat → Nat → Option Nat
  | 0, _ => none
  | fuel + 1, idx =>
    match types[idx]? with
    | some d =>
      match d.kind with
      | .aliasTy (.idx j) => resolveLoop types orig fuel j
      | .aliasTy (.prim _) => some orig
      | _ => some idx
    | none => some idx

/-- `resolveTypeIndex` (converter.ts line 123).  The source reads only
`resolved.types`, so the embedding takes the types array directly. -/
def resolveTypeIndex (fuel : Nat) (t : Ty) (types : List TypeDef) :
    Option ResolveResult :=
  match t with
  | .prim _ => some .primitive
  | .idx n => (resolveLoop types n fuel n).map .node

/-! ## The primitive mapper (the `switch` duplicated at converter.ts
lines 230–255 and 356–380; identical in both directions) -/

/-- The primitive `switch`: maps a primitive tag to its scalar, or fails
with `UnsupportedPrimitive` in the `default` branch.  The cascade keeps the
source's case order. -/
def primScalar (tag : String) : Except ConvError GType :=
  if tag = "string" then .ok .gString
  else if tag = "u8" then .ok .gInt
  else if tag = "u16" then .ok .gInt
  else if tag = "u32" then .ok .gInt
  else if tag = "s8" then .ok .gInt
  else if tag = "s16" then .ok .gInt
  else if tag = "s32" then .ok .gInt
  else if tag = "f32" then .ok .gFloat
  else if tag = "f64" then .ok .gFloat
  else if tag = "bool" then .ok .gBoolean
  else if tag = "u64" then .ok .gString
  else if tag = "s64" then .ok .gString
  else if tag = "char" then .ok .gString
  else if tag = "error-context" then .ok .gString
  else .error (.unsupportedPrimitive tag)

/-! ## The composite type builder (converter.ts lines 169–471) -/

/-- `new GraphQLObjectType` or `new GraphQLInputObjectType`, selected by the
direction flag. -/
def mkObjectType (isInput : Bool) (name : String)
    (fields : List (String × GType)) : GObjDef :=
  if isInput then .inputObjectType name fields else .objectType name fields

/-- The record type name (converter.ts lines 174–176): the declared name in
PascalCase (suffixed `Input` in input direction) or a synthetic
`Record_<id>`. -/
def recordTypeName (witType : TypeDef) (typeIndex : Nat) (isInput : Bool) :
    String :=
  match witType.name with
  | some n => toPascalCase n ++ (if isInput then "Input" else "")
  | none => "Record_" ++ toString typeIndex ++ (if isInput then "_Input" else "")

/-- The variant type name (converter.ts lines 320–322 / 441–443). -/
def variantTypeName (witType : TypeDef) (typeIndex : Nat) : String :=
  match witType.name with
  | some n => toPascalCase n
  | none => "Variant_" ++ toString typeIndex

mutual

/-- `createRecordType` (converter.ts lines 169–223): compute the name, check
the kind, cache a fresh empty placeholder object, convert the fields (so
recursive references hit the placeholder through the cache), then build the
real type from the converted fields and overwrite the cache entry with it.
Every recursive call burns one unit of fuel, so the recursion is structural
in the fuel and computations reduce definitionally. -/
def createRecordType (isInput : Bool) (types : List TypeDef) :
    Nat → Nat → TypeDef → BuildState → Except ConvError (GType × BuildState)
  | 0, _, _, _ => .error .outOfFuel
  | fuel + 1, typeIndex, witType, st =>
    let name := recordTypeName witType typeIndex isInput
    match witType.kind with
    | .record flds =>
      let (ph, st₁) := st.alloc (mkObjectType isInput name [])
      let st₂ := st₁.setCache isInput typeIndex ph
      match convertFieldList isInput types fuel flds [] st₂ with
      | .error e => .error e
      | .ok (gflds, st₃) =>
        let (realType, st₄) := st₃.alloc (mkObjectType isInput name gflds)
        .ok (realType, st₄.setCache isInput typeIndex realType)
    | _ => .error .expectedRecord

/-- The shared body of `convertWitTypeToGraphQLOutput` (converter.ts
lines 225–350) and `convertWitTypeToGraphQLInput` (lines 352–471): resolve
aliases, map primitives, consult the direction's cache, then dispatch on the
node's kind, caching each constructed type under the resolved node id. -/
def convertWitTypeToGraphQL (isInput : Bool) (types : List TypeDef) :
    Nat → Ty → BuildState → Except ConvError (GType × BuildState)
  | 0, _, _ => .error .outOfFuel
  | fuel + 1, t, st =>
    match resolveTypeIndex (fuel + 1) t types with
    | none => .error .outOfFuel
    | some .primitive =>
      match t with
      | .prim tag =>
        match primScalar tag with
        | .error e => .error e
        | .ok g => .ok (g, st)
      | .idx _ => .error .expectedPrimitiveString
    | some (.node i) =>
      match st.getCache isInput i with
      | some g => .ok (g, st)
      | none =>
        match types[i]? with
        | none => .error (.unresolvedType i)
        | some witType =>
          match witType.kind with
          | .aliasTy (.idx j) =>
            convertWitTypeToGraphQL isInput types fuel (.idx j) st
          | .record _ => createRecordType isInput types fuel i witType st
          | .resource => .ok (.gString, st.setCache isInput i .gString)
          | .list t' =>
            match convertWitTypeToGraphQL isInput types fuel t' st with
            | .error e => .error e
            | .ok (g, st₁) =>
              let (l, st₂) := st₁.alloc (.listType g)
              .ok (l, st₂.setCache isInput i l)
          | .option t' =>
            match convertWitTypeToGraphQL isInput types fuel t' st with
            | .error e => .error e
            | .ok (g, st₁) => .ok (g, st₁.setCache isInput i g)
          | .result okT errT =>
            match (match okT with
                   | some t' => convertWitTypeToGraphQL isInput types fuel t' st
                   | none => .ok (.gBoolean, st)) with
            | .error e => .error e
            | .ok (okG, st₁) =>
              match (match errT with
                     | some t' => convertWitTypeToGraphQL isInput types fuel t' st₁
                     | none => .ok (.gString, st₁)) with
              | .error e => .error e
              | .ok (errG, st₂) =>
                let (r, st₃) := st₂.alloc
                  (mkObjectType isInput ("Result_" ++ toString i)
                    [("ok", okG), ("error", errG)])
                .ok (r, st₃.setCache isInput i r)
          | .tuple ts =>
            match convertTyList isInput types fuel ts st with
            | .error e => .error e
            | .ok ([], _) => .error .emptyTuple
            | .ok (g :: _, st₂) =>
              let (l, st₃) := st₂.alloc (.listType g)
              .ok (l, st₃.setCache isInput i l)
          | .variant cases =>
            match convertCaseList isInput types fuel cases
                [("type", GType.gString)] st with
            | .error e => .error e
            | .ok (gflds, st₂) =>
              let (v, st₃) := st₂.alloc
                (mkObjectType isInput (variantTypeName witType i) gflds)
              .ok (v, st₃.setCache isInput i v)
          | .enum _ => .ok (.gString, st.setCache isInput i .gString)
          | .handle _ _ => .ok (.gString, st.setCache isInput i .gString)
          | .flags _ => .ok (.gString, st.setCache isInput i .gString)
          | .future _ => .ok (.gString, st.setCache isInput i .gString)
          | .stream _ => .ok (.gString, st.setCache isInput i .gString)
          | .aliasTy (.prim _) => .error .unsupportedKind

/-- The record field loop (converter.ts lines 194–199 / 211–216): convert
each field's type in declaration order and assign it into the fields object
under the camel-cased field name. -/
def convertFieldList (isInput : Bool) (types : List TypeDef) :
    Nat → List Field → List (String × GType) → BuildState →
      Except ConvError (List (String × GType) × BuildState)
  | _, [], acc, st => .ok (acc, st)
  | 0, _ :: _, _, _ => .error .outOfFuel
  | fuel + 1, f :: rest, acc, st =>
    match convertWitTypeToGraphQL isInput types fuel f.type st with
    | .error e => .error e
    | .ok (g, st₁) =>
      convertFieldList isInput types fuel rest
        (objInsert acc (toCamelCase f.name) g) st₁

/-- The variant case loop (converter.ts lines 326–332 / 447–453): cases with
a payload type contribute a member named after the case; payload-less cases
contribute nothing. -/
def convertCaseList (isInput : Bool) (types : List TypeDef) :
    Nat → List Case → List (String × GType) → BuildState →
      Except ConvError (List (String × GType) × BuildState)
  | _, [], acc, st => .ok (acc, st)
  | 0, _ :: _, _, _ => .error .outOfFuel
  | fuel + 1, c :: rest, acc, st =>
    match c.type with
    | none => convertCaseList isInput types fuel rest acc st
    | some t' =>
      match convertWitTypeToGraphQL isInput types fuel t' st with
      | .error e => .error e
      | .ok (g, st₁) =>
        convertCaseList isInput types fuel rest
          (objInsert acc (toCamelCase c.name) g) st₁

/-- The tuple element map (converter.ts lines 315–317 / 436–438): convert
every element in order (all state effects happen), collecting the results. -/
def convertTyList (isInput : Bool) (types : List TypeDef) :
    Nat → List Ty → BuildState →
      Except ConvError (List GType × BuildState)
  | _, [], st => .ok ([], st)
  | 0, _ :: _, _ => .error .outOfFuel
  | fuel + 1, t' :: rest, st =>
    match convertWitTypeToGraphQL isInput types fuel t' st with
    | .error e => .error e
    | .ok (g, st₁) =>
      match convertTyList isInput types fuel rest st₁ with
      | .error e => .error e
      | .ok (gs, st₂) => .ok (g :: gs, st₂)

end

/-- `convertWitTypeToGraphQLOutput` (converter.ts line 225). -/
def convertWitTypeToGraphQLOutput (fuel : Nat) (types : List TypeDef)
    (t : Ty) (st : BuildState) : Except ConvError (GType × BuildState) :=
  convertWitTypeToGraphQL false types fuel t st

/-- `convertWitTypeToGraphQLInput` (converter.ts line 352). -/
def convertWitTypeToGraphQLInput (fuel : Nat) (types : List TypeDef)
    (t : Ty) (st : BuildState) : Except ConvError (GType × BuildState) :=
  convertWitTypeToGraphQL true types fuel t st

/-! ## The function binder and schema assembler (converter.ts
lines 473–548) -/

/-- `createInputType`'s field loop (converter.ts lines 477–482): each
parameter becomes a required member — `new GraphQLNonNull` around the
input-direction conversion — under the camel-cased parameter name. -/
def buildInputParams (fuel : Nat) (types : List TypeDef) :
    List Param → List (String × GType) → BuildState →
      Except ConvError (List (String × GType) × BuildState)
  | [], acc, st => .ok (acc, st)
  | p :: rest, acc, st =>
    match convertWitTypeToGraphQLInput fuel types p.type st with
    | .error e => .error e
    | .ok (g, st₁) =>
      let (nn, st₂) := st₁.alloc (.nonNullType g)
      buildInputParams fuel types rest
        (objInsert acc (toCamelCase p.name) nn) st₂

/-- `createInputType` (converter.ts lines 473–488): one input object named
`<PascalCase(functionName)>Input` holding the required parameter members. -/
def createInputType (fuel : Nat) (types : List TypeDef)
    (functionName : String) (params : List Param) (st : BuildState) :
    Except ConvError (GType × BuildState) :=
  match buildInputParams fuel types params [] st with
  | .error e => .error e
  | .ok (flds, st₁) =>
    let (t, st₂) :=
      st₁.alloc (.inputObjectType (toPascalCase functionName ++ "Input") flds)
    .ok (t, st₂)

/-- One root-query field as built by the export loop (converter.ts
lines 515–534).  The source's `resolve` closure captures the declared export
name and the function's parameter list; those captures are stored here and
given their runtime semantics by `resolveField` below.  The `args`
declaration is the single nullable argument `input` of type `inputType`. -/
structure GFieldDef where
  type : GType
  inputType : GType
  resolverName : String
  resolverParams : List Param
deriving Repr

/-- The body of the export loop for one function export (converter.ts
lines 509–534): build the input type, then the output type — the
output-direction conversion of the declared result, or Boolean when no
result is declared — and record the resolver's captures. -/
def bindFunctionExport (fuel : Nat) (types : List TypeDef) (name : String)
    (func : Func) (st : BuildState) :
    Except ConvError (GFieldDef × BuildState) :=
  match createInputType fuel types name func.params st with
  | .error e => .error e
  | .ok (inputType, st₁) =>
    match (match func.result with
           | some r => convertWitTypeToGraphQLOutput fuel types r st₁
           | none => .ok (GType.gBoolean, st₁)) with
    | .error e => .error e
    | .ok (returnType, st₂) =>
      .ok ({ type := returnType, inputType := inputType,
             resolverName := name, resolverParams := func.params }, st₂)

/-- The export loop (converter.ts lines 494–536): function exports are bound
into `queryFields` under their camel-cased name; every other export is
skipped. -/
def processExports (fuel : Nat) (types : List TypeDef) :
    List (String × WorldItem) → List (String × GFieldDef) → BuildState →
      Except ConvError (List (String × GFieldDef) × BuildState)
  | [], acc, st => .ok (acc, st)
  | (name, .function f) :: rest, acc, st =>
    match bindFunctionExport fuel types name f st with
    | .error e => .error e
    | .ok (fld, st₁) =>
      processExports fuel types rest (objInsert acc (toCamelCase name) fld) st₁
  | (_, _) :: rest, acc, st => processExports fuel types rest acc st

/-- The built schema (converter.ts lines 539–547): the source wraps
`queryFields` into `new GraphQLObjectType({ name: "Query", fields })` and
that into `new GraphQLSchema({ query })`; the model keeps the root query's
fields together with the final build state (heap and caches). -/
structure GraphQLSchema where
  queryFields : List (String × GFieldDef)
  finalState : BuildState
deriving Repr

/-- `createGraphQLSchema` (converter.ts line 148).  Reads `resolved.worlds[0]`
(only the first world) and folds the export loop over its entries from a
fresh build state.  The `module` argument of the source is only captured by
the resolver closures, so it enters the model at invocation time
(`resolveField`), not at build time. -/
def createGraphQLSchema (fuel : Nat) (resolved : Resolved) :
    Except ConvError GraphQLSchema :=
  match resolved.worlds[0]? with
  | none => .error .noWorld
  | some world =>
    match processExports fuel resolved.types world.exports [] .init with
    | .error e => .error e
    | .ok (queryFields, st) =>
      .ok { queryFields := queryFields, finalState := st }

/-! ## The resolver runtime (converter.ts lines 520–533)

The resolver is an async closure run by graphql-js; its semantics are pure
given the settled outcome of the one native call it awaits, so it is
modelled as a function from the resolver's captures, the function table and
the `input` argument value to a settled result. -/

/-- A JavaScript runtime value, as far as the resolver inspects one. -/
inductive JSValue where
  | undefined
  | null
  | bool (b : Bool)
  | num (n : Int)
  | str (s : String)
  | arr (xs : List JSValue)
  | obj (fields : List (String × JSValue))
deriving Repr

/-- A thrown/rejected JavaScript value: either an `Error` instance carrying
its `.message`, or any non-`Error` value (the resolver only distinguishes
these two shapes via `instanceof Error`). -/
inductive JSError where
  | error (message : String)
  | nonError
deriving Repr

/-- Property read `v[key]`: throws a `TypeError` on `undefined`/`null`
receivers (its exact message is host-defined; only its being an `Error`
matters here), yields `undefined` for absent properties and non-object
receivers. -/
def jsGetProp : JSValue → String → Except JSError JSValue
  | .undefined, _ => .error (.error "TypeError: Cannot read properties of undefined")
  | .null, _ => .error (.error "TypeError: Cannot read properties of null")
  | .obj fs, k => .ok ((objGet fs k).getD .undefined)
  | _, _ => .ok .undefined

/-- The supplied function table: camel-cased name to the settled outcome of
the bound native async function on a positional argument list. -/
def ModuleTable : Type :=
  List (String × (List JSValue → Except JSError JSValue))

/-- `input[toCamelCase(param.name)]` for each parameter in declared order
(converter.ts lines 522–524); the first throw escapes. -/
def projectArgs (input : JSValue) : List Param → Except JSError (List JSValue)
  | [] => .ok []
  | p :: rest =>
    match jsGetProp input (toCamelCase p.name) with
    | .error e => .error e
    | .ok v =>
      match projectArgs input rest with
      | .error e => .error e
      | .ok vs => .ok (v :: vs)

/-- `module[camelCaseName](...args)` (converter.ts line 526): a missing
table entry is `undefined`, and calling it throws a `TypeError` (message
host-defined). -/
def moduleCall (module : ModuleTable) (name : String)
    (args : List JSValue) : Except JSError JSValue :=
  match objGet module name with
  | some f => f args
  | none => .error (.error ("TypeError: module." ++ name ++ " is not a function"))

/-- The resolver body (converter.ts lines 520–533): project the `input`
object into a positional argument list in declared parameter order, invoke
the table entry under the camel-cased captured name, pass a fulfilled result
through unchanged, and turn any throw/rejection inside the `try` into an
`Error` whose message embeds the captured declared name. -/
def resolveField (module : ModuleTable) (fld : GFieldDef)
    (input : JSValue) : Except String JSValue :=
  match ((match projectArgs input fld.resolverParams with
          | .error e => .error e
          | .ok args => moduleCall module (toCamelCase fld.resolverName) args) :
         Except JSError JSValue) with
  | .ok v => .ok v
  | .error (.error msg) =>
    .error ("Error executing " ++ fld.resolverName ++ ": " ++ msg)
  | .error .nonError =>
    .error ("Unknown error executing " ++ fld.resolverName)

/-! ## Predicates and auxiliary definitions used by the theorems -/

/-- One alias hop in the type graph: node `i` exists and is an alias whose
target is node `j`. -/
def aliasStep (types : List TypeDef) (i j : Nat) : Prop :=
  ∃ d, types[i]? = some d ∧ d.kind = .aliasTy (.idx j)

/-- The spec's precondition on the graph: no chain of alias hops returns to
its starting node. -/
def NoAliasCycle (types : List TypeDef) : Prop :=
  ∀ i, ¬ Relation.TransGen (aliasStep types) i i

/-- The alias successor of a node, when it has one. -/
def aliasNext (types : List TypeDef) (i : Nat) : Option Nat :=
  types[i]?.bind fun d =>
    match d.kind with
    | .aliasTy (.idx j) => some j
    | _ => none

/-- `k` alias hops from `start` (`none` once the chain leaves alias
nodes). -/
def aliasChain (types : List TypeDef) (start : Nat) : Nat → Option Nat
  | 0 => some start
  | k + 1 => (aliasChain types start k).bind (aliasNext types)

/-- The alias chain from node `i` eventually reaches a node whose kind is an
alias of a primitive tag.  On such a node `resolveTypeIndex` returns its
original argument, whose kind is still an alias. -/
inductive AliasPrimReach (types : List TypeDef) : Nat → Prop where
  | base {i d s} : types[i]? = some d → d.kind = .aliasTy (.prim s) →
      AliasPrimReach types i
  | step {i d j} : types[i]? = some d → d.kind = .aliasTy (.idx j) →
      AliasPrimReach types j → AliasPrimReach types i

/-- A node id may sit in a conversion cache only if it exists in the graph
and is not an alias node (the converter never caches under an alias id). -/
def CacheOkAt (types : List TypeDef) (i : Nat) : Prop :=
  ∃ d, types[i]? = some d ∧ ∀ t, d.kind ≠ .aliasTy t

/-- The build-state invariant: every key of either cache is a non-alias node
of the graph.  It holds for `BuildState.init` and is preserved by the
converter. -/
def CachesWellFormed (types : List TypeDef) (st : BuildState) : Prop :=
  ∀ isInput i t, st.getCache isInput i = some t → CacheOkAt types i

/-- The heap only ever grows by appending: `st'` extends `st`. -/
def HeapExtends (st st' : BuildState) : Prop :=
  ∃ tl, st'.heap = st.heap ++ tl

/-- The function exports of a world's export list, in order. -/
def functionExports (exports : List (String × WorldItem)) :
    List (String × Func) :=
  exports.filterMap fun e =>
    match e with
    | (n, .function f) => some (n, f)
    | _ => none

/-! ### Spec-side casing definitions (for the refinement claim about §4.6)

The following definitions follow the specification's words — "source names
use hyphenated lowercase words; field/function names convert … by
uppercasing the letter following each hyphen and removing the hyphen, then
lowercasing the first character; type names use the same transform but the
first character is uppercased instead" — to be compared against the
source-derived `toCamelCase`/`toPascalCase`. -/

/-- A word of a source name: nonempty, all ASCII lowercase letters. -/
def LowerWord (w : String) : Prop :=
  w ≠ "" ∧ ∀ c ∈ w.data, isAsciiLower c

/-- Uppercase the first character. -/
def upperFirst (w : String) : String :=
  match w.data with
  | [] => ""
  | c :: cs => String.mk (c.toUpper :: cs)

/-- Lowercase the first character. -/
def lowerFirst (w : String) : String :=
  match w.data with
  | [] => ""
  | c :: cs => String.mk (c.toLower :: cs)

/-- Concatenate a list of strings. -/
def concatWords : List String → String
  | [] => ""
  | w :: ws => w ++ concatWords ws

/-- A source name as the spec describes it: its words joined by single
hyphens. -/
def hyphenate : List String → String
  | [] => ""
  | [w] => w
  | w :: ws => w ++ "-" ++ hyphenate ws

/-- The spec's hyphen elimination: each hyphen is removed and the letter
that followed it is uppercased — on a word list, the first word followed by
the remaining words capitalized. -/
def specStem : List String → String
  | [] => ""
  | w :: ws => w ++ concatWords (ws.map upperFirst)

/-- The spec's member-name (field/function) transform. -/
def specMemberName (ws : List String) : String :=
  lowerFirst (specStem ws)

/-- The spec's type-name transform. -/
def specTypeName (ws : List String) : String :=
  upperFirst (specStem ws)

/-! ### Concrete inputs used by witnesses and counterexamples -/

/-- A record named `node` whose only field `self` refers back to the record
itself. -/
def selfRecNode : TypeDef :=
  { name := some "node", kind := .record [{ name := "self", type := .idx 0 }] }

/-- The one-node graph holding `selfRecNode`. -/
def selfRecGraph : List TypeDef :=
  [selfRecNode]

/-- The build state produced by converting `selfRecGraph`'s node 0 in the
output direction from the empty state: the empty placeholder at heap slot 0
and the real record type at heap slot 1, with the cache pointing at the
latter. -/
def selfRecFinalState : BuildState :=
  { heap := [.objectType "Node" [], .objectType "Node" [("self", .ref 0)]],
    outputTypeCache := [(0, .ref 1)],
    inputTypeCache := [] }

/-- A three-element heterogeneous tuple node. -/
def tupleGraph3 : List TypeDef :=
  [{ name := none, kind := .tuple [.prim "string", .prim "u32", .prim "bool"] }]

/-- A named alias of a primitive (`type my-str = string`). -/
def aliasPrimGraph : List TypeDef :=
  [{ name := some "my-str", kind := .aliasTy (.prim "string") }]

/-- A single-node graph with no alias at all (hence no alias cycle). -/
def oneRecordGraph : List TypeDef :=
  [{ name := some "unit-rec", kind := .record [] }]

/-- The `reverse` export: `reverse: func(str: string) -> string`. -/
def reverseFunc : Func :=
  { name := "reverse",
    params := [{ name := "str", type := .prim "string" }],
    result := some (.prim "string") }

/-- A world exporting only `reverse`. -/
def reverseWorld : World :=
  { name := "reverse-world", exports := [("reverse", .function reverseFunc)] }

/-- A `reverse`-like component: one world exporting one function. -/
def reverseResolved : Resolved :=
  { types := [], worlds := [reverseWorld] }

/-- The same component with a second world appended; its exports must not
contribute any schema field. -/
def reverseTwoWorlds : Resolved :=
  { types := [],
    worlds := [reverseWorld,
               { name := "extra-world",
                 exports := [("extra-fn", .function
                   { name := "extra-fn", params := [] })] }] }

/-- The build state after `createInputType` for `reverse` from the empty
state: the `NonNull(String)` wrapper at slot 0 and the `ReverseInput` input
object at slot 1. -/
def reverseInputState : BuildState :=
  { heap := [.nonNullType .gString,
             .inputObjectType "ReverseInput" [("str", .ref 0)]],
    outputTypeCache := [],
    inputTypeCache := [] }

/-- The schema built from `reverseResolved`. -/
def reverseSchemaBuilt : GraphQLSchema :=
  { queryFields := [("reverse",
      { type := .gString, inputType := .ref 1, resolverName := "reverse",
        resolverParams := [{ name := "str", type := .prim "string" }] })],
    finalState := reverseInputState }

/-- The root-query field built for `reverse`. -/
def reverseFieldDef : GFieldDef :=
  { type := .gString, inputType := .ref 1, resolverName := "reverse",
    resolverParams := [{ name := "str", type := .prim "string" }] }

/-- Two distinct export names whose casing transforms collide
(`toCamelCase "fo-obar" = toCamelCase "foObar" = "foObar"`). -/
def collideResolved : Resolved :=
  { types := [],
    worlds := [{ name := "collide-world",
                 exports := [("fo-obar", .function
                                { name := "fo-obar", params := [] }),
                             ("foObar", .function
                                { name := "foObar", params := [] })] }] }

/-! # Theorems

## Basic lemmas about the state primitives -/

theorem mapGet_mapSet (m : List (Nat × GType)) (k k' : Nat) (v : GType) :
    mapGet (mapSet m k v) k' = if k' = k then some v else mapGet m k' := by
  induction m with
  | nil => simp [mapSet, mapGet]
  | cons p rest ih =>
    obtain ⟨a, b⟩ := p
    by_cases hka : k = a
    · subst hka
      by_cases hk'a : k' = k <;> simp [mapSet, mapGet, hk'a]
    · by_cases hk'a : k' = a
      · subst hk'a
        have : ¬ k' = k := fun h => hka h.symm
        simp [mapSet, mapGet, hka, this]
      · simp [mapSet, mapGet, hka, hk'a, ih]

theorem objGet_objInsert {α : Type} (m : List (String × α)) (k k' : String)
    (v : α) :
    objGet (objInsert m k v) k' = if k' = k then some v else objGet m k' := by
  induction m with
  | nil => simp [objInsert, objGet]
  | cons p rest ih =>
    obtain ⟨a, b⟩ := p
    by_cases hka : k = a
    · subst hka
      by_cases hk'a : k' = k <;> simp [objInsert, objGet, hk'a]
    · by_cases hk'a : k' = a
      · subst hk'a
        have : ¬ k' = k := fun h => hka h.symm
        simp [objInsert, objGet, hka, this]
      · simp [objInsert, objGet, hka, hk'a, ih]

theorem objInsert_keys {α : Type} (m : List (String × α)) (k : String)
    (v : α) :
    (objInsert m k v).map Prod.fst =
      if k ∈ m.map Prod.fst then m.map Prod.fst
      else m.map Prod.fst ++ [k] := by
  induction m with
  | nil => simp [objInsert]
  | cons p rest ih =>
    obtain ⟨a, b⟩ := p
    by_cases hka : k = a
    · subst hka
      simp [objInsert]
    · have : a ≠ k := fun h => hka h.symm
      by_cases hmem : k ∈ rest.map Prod.fst <;>
        simp [objInsert, hka, this, hmem, ih]

theorem objInsert_append_of_not_mem {α : Type} (m : List (String × α))
    (k : String) (v : α) (h : k ∉ m.map Prod.fst) :
    objInsert m k v = m ++ [(k, v)] := by
  induction m with
  | nil => simp [objInsert]
  | cons p rest ih =>
    obtain ⟨a, b⟩ := p
    simp only [List.map_cons, List.mem_cons] at h
    push_neg at h
    simp [objInsert, h.1, ih h.2]

theorem setCache_heap (st : BuildState) (b : Bool) (i : Nat) (v : GType) :
    (st.setCache b i v).heap = st.heap := by
  cases b <;> rfl

theorem alloc_snd_heap (st : BuildState) (o : GObjDef) :
    (st.alloc o).2.heap = st.heap ++ [o] := rfl

theorem alloc_fst (st : BuildState) (o : GObjDef) :
    (st.alloc o).1 = .ref st.heap.length := rfl

theorem alloc_getCache (st : BuildState) (o : GObjDef) (b : Bool) (k : Nat) :
    (st.alloc o).2.getCache b k = st.getCache b k := by
  cases b <;> rfl

theorem getCache_setCache_same (st : BuildState) (b : Bool) (i k : Nat)
    (v : GType) :
    (st.setCache b i v).getCache b k = if k = i then some v else st.getCache b k := by
  cases b <;>
    simp [BuildState.setCache, BuildState.getCache, BuildState.getIn,
      BuildState.getOut, mapGet_mapSet]

theorem getCache_setCache_other (st : BuildState) (b b' : Bool) (i k : Nat)
    (v : GType) (h : b' ≠ b) :
    (st.setCache b i v).getCache b' k = st.getCache b' k := by
  cases b <;> cases b' <;> first
  | exact absurd rfl h
  | simp [BuildState.setCache, BuildState.getCache, BuildState.getIn,
      BuildState.getOut]

theorem heapExtends_refl (st : BuildState) : HeapExtends st st :=
  ⟨[], by simp⟩

theorem heapExtends_trans {s1 s2 s3 : BuildState} (h1 : HeapExtends s1 s2)
    (h2 : HeapExtends s2 s3) : HeapExtends s1 s3 := by
  obtain ⟨t1, e1⟩ := h1
  obtain ⟨t2, e2⟩ := h2
  exact ⟨t1 ++ t2, by rw [e2, e1, List.append_assoc]⟩

theorem heapExtends_alloc (st : BuildState) (o : GObjDef) :
    HeapExtends st (st.alloc o).2 :=
  ⟨[o], rfl⟩

theorem heapExtends_setCache (st st' : BuildState) (b : Bool) (i : Nat)
    (v : GType) (h : HeapExtends st st') :
    HeapExtends st (st'.setCache b i v) := by
  obtain ⟨tl, e⟩ := h
  exact ⟨tl, by rw [setCache_heap, e]⟩

theorem heapExtends_length {st st' : BuildState} (h : HeapExtends st st') :
    st.heap.length ≤ st'.heap.length := by
  obtain ⟨tl, e⟩ := h
  simp [e]

theorem heapExtends_lookup {st st' : BuildState} {k : Nat} {o : GObjDef}
    (h : HeapExtends st st') (hk : st.heap[k]? = some o) :
    st'.heap[k]? = some o := by
  obtain ⟨tl, e⟩ := h
  have hlt : k < st.heap.length := by
    by_contra hge
    rw [List.getElem?_eq_none (Nat.le_of_not_lt hge)] at hk
    exact Option.noConfusion hk
  rw [e, List.getElem?_append, if_pos hlt]
  exact hk

theorem heapObj_extends {st st' : BuildState} {t : GType} {o : GObjDef}
    (h : HeapExtends st st') (ho : heapObj st t = some o) :
    heapObj st' t = some o := by
  cases t with
  | ref i => exact heapExtends_lookup h ho
  | gString => exact absurd ho (by simp [heapObj])
  | gInt => exact absurd ho (by simp [heapObj])
  | gFloat => exact absurd ho (by simp [heapObj])
  | gBoolean => exact absurd ho (by simp [heapObj])

theorem cachesWellFormed_init (types : List TypeDef) :
    CachesWellFormed types .init := by
  intro b i t h
  cases b <;>
    simp [BuildState.getCache, BuildState.getIn, BuildState.getOut,
      BuildState.init, mapGet] at h

theorem cachesWellFormed_setCache {types : List TypeDef} {st : BuildState}
    (b : Bool) (i : Nat) (v : GType) (hwf : CachesWellFormed types st)
    (hok : CacheOkAt types i) :
    CachesWellFormed types (st.setCache b i v) := by
  intro b' k t h
  by_cases hb : b' = b
  · subst hb
    rw [getCache_setCache_same] at h
    by_cases hk : k = i
    · exact hk ▸ hok
    · rw [if_neg hk] at h
      exact hwf b' k t h
  · rw [getCache_setCache_other _ _ _ _ _ _ hb] at h
    exact hwf b' k t h

theorem cachesWellFormed_alloc {types : List TypeDef} {st : BuildState}
    (o : GObjDef) (hwf : CachesWellFormed types st) :
    CachesWellFormed types (st.alloc o).2 := by
  intro b k t h
  rw [alloc_getCache] at h
  exact hwf b k t h

/-! ## C2: the primitive mapping table -/

/-- Converting a primitive tag reference, in either direction, runs the
primitive switch on an unchanged state. -/
theorem conv_prim (isInput : Bool) (types : List TypeDef) (fuel : Nat)
    (tag : String) (st : BuildState) :
    convertWitTypeToGraphQL isInput types (fuel + 1) (.prim tag) st =
      match primScalar tag with
      | .error e => .error e
      | .ok g => .ok (g, st) := by
  simp [convertWitTypeToGraphQL, resolveTypeIndex]

/-- The `default` branch of the switch: a tag outside the fixed table. -/
theorem primScalar_not_in_table (tag : String)
    (h : tag ∉ (["bool", "u8", "u16", "u32", "s8", "s16", "s32", "f32",
      "f64", "string", "char", "error-context", "u64", "s64"] : List String)) :
    primScalar tag = .error (.unsupportedPrimitive tag) := by
  simp only [List.mem_cons, List.not_mem_nil, or_false] at h
  push_neg at h
  obtain ⟨h1, h2, h3, h4, h5, h6, h7, h8, h9, h10, h11, h12, h13, h14⟩ := h
  simp [primScalar, h1, h2, h3, h4, h5, h6, h7, h8, h9, h10, h11, h12, h13,
    h14]

/-- C2.  For every primitive tag in the fixed table, conversion in either
direction (`isInput` false/output or true/input, i.e. both
`convertWitTypeToGraphQLOutput` and `convertWitTypeToGraphQLInput`) yields
exactly the specified scalar — bool ↦ Boolean; u8, u16, u32, s8, s16,
s32 ↦ Integer; f32, f64 ↦ Float; string, char, error-context, u64,
s64 ↦ String — without touching the build state; and every tag outside the
table fails with `UnsupportedPrimitive`. -/
theorem primitive_mapping_table (isInput : Bool) (types : List TypeDef)
    (fuel : Nat) (st : BuildState) (tag : String) :
    (convertWitTypeToGraphQL isInput types (fuel + 1) (.prim "bool") st =
      .ok (.gBoolean, st)) ∧
    (convertWitTypeToGraphQL isInput types (fuel + 1) (.prim "u8") st =
      .ok (.gInt, st)) ∧
    (convertWitTypeToGraphQL isInput types (fuel + 1) (.prim "u16") st =
      .ok (.gInt, st)) ∧
    (convertWitTypeToGraphQL isInput types (fuel + 1) (.prim "u32") st =
      .ok (.gInt, st)) ∧
    (convertWitTypeToGraphQL isInput types (fuel + 1) (.prim "s8") st =
      .ok (.gInt, st)) ∧
    (convertWitTypeToGraphQL isInput types (fuel + 1) (.prim "s16") st =
      .ok (.gInt, st)) ∧
    (convertWitTypeToGraphQL isInput types (fuel + 1) (.prim "s32") st =
      .ok (.gInt, st)) ∧
    (convertWitTypeToGraphQL isInput types (fuel + 1) (.prim "f32") st =
      .ok (.gFloat, st)) ∧
    (convertWitTypeToGraphQL isInput types (fuel + 1) (.prim "f64") st =
      .ok (.gFloat, st)) ∧
    (convertWitTypeToGraphQL isInput types (fuel + 1) (.prim "string") st =
      .ok (.gString, st)) ∧
    (convertWitTypeToGraphQL isInput types (fuel + 1) (.prim "char") st =
      .ok (.gString, st)) ∧
    (convertWitTypeToGraphQL isInput types (fuel + 1) (.prim "error-context") st =
      .ok (.gString, st)) ∧
    (convertWitTypeToGraphQL isInput types (fuel + 1) (.prim "u64") st =
      .ok (.gString, st)) ∧
    (convertWitTypeToGraphQL isInput types (fuel + 1) (.prim "s64") st =
      .ok (.gString, st)) ∧
    (tag ∉ (["bool", "u8", "u16", "u32", "s8", "s16", "s32", "f32", "f64",
        "string", "char", "error-context", "u64", "s64"] : List String) →
      convertWitTypeToGraphQL isInput types (fuel + 1) (.prim tag) st =
        .error (.unsupportedPrimitive tag)) := by
  refine ⟨?_, ?_, ?_, ?_, ?_, ?_, ?_, ?_, ?_, ?_, ?_, ?_, ?_, ?_, ?_⟩
  case _ => rw [conv_prim]; rfl
  case _ => rw [conv_prim]; rfl
  case _ => rw [conv_prim]; rfl
  case _ => rw [conv_prim]; rfl
  case _ => rw [conv_prim]; rfl
  case _ => rw [conv_prim]; rfl
  case _ => rw [conv_prim]; rfl
  case _ => rw [conv_prim]; rfl
  case _ => rw [conv_prim]; rfl
  case _ => rw [conv_prim]; rfl
  case _ => rw [conv_prim]; rfl
  case _ => rw [conv_prim]; rfl
  case _ => rw [conv_prim]; rfl
  case _ => rw [conv_prim]; rfl
  case _ =>
    intro h
    rw [conv_prim, primScalar_not_in_table tag h]

/-- Witness for C2: instantiated at the output direction, the `"q128"` tag
and the empty state. -/
theorem primitive_mapping_table_witness :
    convertWitTypeToGraphQL false [] 1 (.prim "bool") BuildState.init =
      .ok (.gBoolean, BuildState.init) ∧
    convertWitTypeToGraphQL false [] 1 (.prim "q128") BuildState.init =
      .error (.unsupportedPrimitive "q128") :=
  ⟨(primitive_mapping_table false [] 0 BuildState.init "q128").1,
   (primitive_mapping_table false [] 0 BuildState.init "q128").2.2.2.2.2.2.2.2.2.2.2.2.2.2
     (by decide)⟩

/-! ## C9: a named alias of a primitive hits the unsupported-kind throw -/

/-- C9.  For a node whose kind is an alias of a primitive tag, alias
resolution returns the original node id, and the kind dispatch has no branch
for an alias kind, so conversion (in either direction) fails with
`UnsupportedKind` instead of yielding the primitive's scalar. -/
theorem alias_of_primitive_unsupported_kind (isInput : Bool) (fuel : Nat)
    (types : List TypeDef) (st : BuildState) (i : Nat) (d : TypeDef)
    (s : String) (hd : types[i]? = some d) (hk : d.kind = .aliasTy (.prim s))
    (hc : st.getCache isInput i = none) :
    convertWitTypeToGraphQL isInput types (fuel + 1) (.idx i) st =
      .error .unsupportedKind := by
  have hres : resolveTypeIndex (fuel + 1) (.idx i) types = some (.node i) := by
    simp [resolveTypeIndex, resolveLoop, hd, hk]
  simp [convertWitTypeToGraphQL, hres, hc, hd, hk]

/-- Witness for C9: the one-node graph `type my-str = string`, both
directions, from the empty state. -/
theorem alias_of_primitive_unsupported_kind_witness :
    convertWitTypeToGraphQL false aliasPrimGraph 10 (.idx 0)
        BuildState.init = .error .unsupportedKind ∧
    convertWitTypeToGraphQL true aliasPrimGraph 10 (.idx 0)
        BuildState.init = .error .unsupportedKind :=
  ⟨alias_of_primitive_unsupported_kind false 9 aliasPrimGraph BuildState.init
      0 { name := some "my-str", kind := .aliasTy (.prim "string") } "string"
      rfl rfl rfl,
   alias_of_primitive_unsupported_kind true 9 aliasPrimGraph BuildState.init
      0 { name := some "my-str", kind := .aliasTy (.prim "string") } "string"
      rfl rfl rfl⟩

/-! ## C6: tuples convert to a list of the first element's type -/

theorem getElem?_append_length {α : Type} (l : List α) (x : α) :
    (l ++ [x])[l.length]? = some x := by
  rw [List.getElem?_append_right (Nat.le_refl _)]
  simp

/-- C6.  A tuple node converts (in either direction) to a list-of type
wrapping the conversion of only its first element's type: the resulting heap
object is exactly `listType r` where `r` is the conversion of the first
element from the entry state — the arity and the remaining elements' types
do not appear in the resulting type. -/
theorem tuple_converts_to_list_of_first_element (isInput : Bool) (fuel : Nat)
    (types : List TypeDef) (st : BuildState) (i : Nat) (d : TypeDef)
    (a : Ty) (rest : List Ty) (t : GType) (st' : BuildState)
    (hd : types[i]? = some d) (hk : d.kind = .tuple (a :: rest))
    (hc : st.getCache isInput i = none)
    (h : convertWitTypeToGraphQL isInput types (fuel + 2) (.idx i) st =
      .ok (t, st')) :
    ∃ r st₁, convertWitTypeToGraphQL isInput types fuel a st = .ok (r, st₁) ∧
      heapObj st' t = some (.listType r) := by
  have hres : resolveTypeIndex (fuel + 2) (.idx i) types = some (.node i) := by
    simp [resolveTypeIndex, resolveLoop, hd, hk]
  simp only [convertWitTypeToGraphQL, hres, hc, hd, hk] at h
  cases hca : convertWitTypeToGraphQL isInput types fuel a st with
  | error e => simp [convertTyList, hca] at h
  | ok p =>
    obtain ⟨g, st₁⟩ := p
    cases hcr : convertTyList isInput types fuel rest st₁ with
    | error e => simp [convertTyList, hca, hcr] at h
    | ok q =>
      obtain ⟨gs, st₂⟩ := q
      simp only [convertTyList, hca, hcr, BuildState.alloc,
        Except.ok.injEq, Prod.mk.injEq] at h
      obtain ⟨ht, hst⟩ := h
      subst ht
      subst hst
      refine ⟨g, st₁, rfl, ?_⟩
      simp only [heapObj, setCache_heap]
      exact getElem?_append_length _ _


/-- Witness for C6: the tuple `tuple<string, u32, bool>` of three
differently-typed elements; its conversion is the single-element-type list
`listType gString` — `u32` and `bool` are not represented. -/
theorem tuple_converts_to_list_of_first_element_witness :
    ∃ r st₁,
      convertWitTypeToGraphQL false tupleGraph3 8 (.prim "string")
        BuildState.init = .ok (r, st₁) ∧
      heapObj { heap := [.listType .gString],
                outputTypeCache := [(0, .ref 0)],
                inputTypeCache := [] } (.ref 0) = some (.listType r) :=
  tuple_converts_to_list_of_first_element false 8 tupleGraph3
    BuildState.init 0
    { name := none, kind := .tuple [.prim "string", .prim "u32", .prim "bool"] }
    (.prim "string") [.prim "u32", .prim "bool"] (.ref 0)
    { heap := [.listType .gString],
      outputTypeCache := [(0, .ref 0)],
      inputTypeCache := [] }
    rfl rfl rfl rfl

/-! ## C3: alias resolution terminates on cycle-free graphs -/

theorem aliasChain_succ_front (types : List TypeDef) (k : Nat) :
    ∀ start, aliasChain types start (k + 1) =
      (aliasNext types start).bind (fun j => aliasChain types j k) := by
  induction k with
  | zero =>
    intro start
    cases hn : aliasNext types start <;> simp [aliasChain, hn]
  | succ k ih =>
    intro start
    have l1 : aliasChain types start (k + 1 + 1) =
        (aliasChain types start (k + 1)).bind (aliasNext types) := rfl
    rw [l1, ih start]
    cases hn : aliasNext types start with
    | none => simp
    | some j =>
      simp only [Option.some_bind]
      rfl

theorem aliasNext_step {types : List TypeDef} {i j : Nat}
    (h : aliasNext types i = some j) : aliasStep types i j := by
  unfold aliasNext at h
  rw [Option.bind_eq_some] at h
  obtain ⟨d, hd, hm⟩ := h
  cases hk : d.kind <;> rw [hk] at hm <;> try exact Option.noConfusion hm
  case aliasTy t =>
    cases t with
    | prim s => exact Option.noConfusion hm
    | idx j' =>
      obtain rfl : j' = j := Option.some.inj hm
      exact ⟨d, hd, hk⟩

theorem aliasNext_lt {types : List TypeDef} {i j : Nat}
    (h : aliasNext types i = some j) : i < types.length := by
  unfold aliasNext at h
  rw [Option.bind_eq_some] at h
  obtain ⟨d, hd, _⟩ := h
  exact (List.getElem?_eq_some.mp hd).1

theorem resolveLoop_none_chain (types : List TypeDef) (orig : Nat) :
    ∀ fuel cur, resolveLoop types orig fuel cur = none →
      ∀ k, k < fuel → ∃ i j, aliasChain types cur k = some i ∧
        aliasNext types i = some j := by
  intro fuel
  induction fuel with
  | zero => intro cur _ k hk; exact absurd hk (Nat.not_lt_zero k)
  | succ fuel ih =>
    intro cur h k hk
    cases hd : types[cur]? with
    | none => simp [resolveLoop, hd] at h
    | some d =>
      cases hkind : d.kind <;> simp only [resolveLoop, hd, hkind] at h <;>
        try exact Option.noConfusion h
      case aliasTy t =>
        cases t with
        | prim s => simp at h
        | idx j =>
          have hnext : aliasNext types cur = some j := by
            unfold aliasNext
            rw [hd]
            simp [hkind]
          cases k with
          | zero => exact ⟨cur, j, rfl, hnext⟩
          | succ k =>
            have hk' : k < fuel := Nat.lt_of_succ_lt_succ hk
            obtain ⟨i, j', hchain, hnext'⟩ := ih j h k hk'
            refine ⟨i, j', ?_, hnext'⟩
            rw [aliasChain_succ_front, hnext]
            simpa using hchain

theorem chain_aliasStep (types : List TypeDef) (n : Nat) (B : Nat)
    (H : ∀ k, k < B → ∃ i j, aliasChain types n k = some i ∧
      aliasNext types i = some j)
    (k : Nat) (hk : k < B) :
    aliasStep types ((aliasChain types n k).getD 0)
      ((aliasChain types n (k + 1)).getD 0) := by
  obtain ⟨i, j, hchain, hnext⟩ := H k hk
  have hchain' : aliasChain types n (k + 1) = some j := by
    have : aliasChain types n (k + 1) =
        (aliasChain types n k).bind (aliasNext types) := rfl
    rw [this, hchain]
    simpa using hnext
  rw [hchain, hchain']
  exact aliasNext_step hnext

theorem chain_transGen (types : List TypeDef) (n : Nat) (B : Nat)
    (H : ∀ k, k < B → ∃ i j, aliasChain types n k = some i ∧
      aliasNext types i = some j)
    (a b : Nat) (hab : a < b) (hbB : b ≤ B) :
    Relation.TransGen (aliasStep types)
      ((aliasChain types n a).getD 0) ((aliasChain types n b).getD 0) := by
  induction b with
  | zero => exact absurd hab (Nat.not_lt_zero a)
  | succ b ih =>
    have hbB' : b < B := Nat.lt_of_succ_le hbB
    rcases Nat.lt_or_ge a b with hab' | hge
    · exact .tail (ih hab' (Nat.le_of_lt hbB'))
        (chain_aliasStep types n B H b hbB')
    · have : a = b := Nat.le_antisymm (Nat.lt_succ_iff.mp hab) hge
      subst this
      exact .single (chain_aliasStep types n B H a hbB')

theorem resolveLoop_terminates (types : List TypeDef)
    (h : NoAliasCycle types) (n : Nat) :
    resolveLoop types n (types.length + 1) n ≠ none := by
  intro hnone
  have hchain := resolveLoop_none_chain types n (types.length + 1) n hnone
  have hmaps : ∀ k ∈ Finset.range (types.length + 1),
      (aliasChain types n k).getD 0 ∈ Finset.range types.length := by
    intro k hk
    rw [Finset.mem_range] at hk
    obtain ⟨i, j, hc, hnext⟩ := hchain k hk
    rw [hc]
    exact Finset.mem_range.mpr (aliasNext_lt hnext)
  have hcard : (Finset.range types.length).card <
      (Finset.range (types.length + 1)).card := by simp
  obtain ⟨x, hx, y, hy, hxy, hfxy⟩ :=
    Finset.exists_ne_map_eq_of_card_lt_of_maps_to hcard hmaps
  rw [Finset.mem_range] at hx hy
  rcases Nat.lt_or_ge x y with hlt | hge
  · have htg := chain_transGen types n (types.length + 1) hchain x y hlt
      (Nat.le_of_lt hy)
    rw [← hfxy] at htg
    exact h _ htg
  · have hyx : y < x := Nat.lt_of_le_of_ne hge (fun e => hxy e.symm)
    have htg := chain_transGen types n (types.length + 1) hchain y x hyx
      (Nat.le_of_lt hx)
    rw [hfxy] at htg
    exact h _ htg

/-- C3.  Under the precondition that the graph has no alias cycle, alias
resolution terminates for every `Type` reference with fuel
`types.length + 1` (i.e. the source's unbounded `while` loop stops): the
result is never the fuel-exhaustion marker.  A primitive tag is signaled as
primitive, and a node reference resolves to a node id. -/
theorem alias_resolution_terminates (types : List TypeDef)
    (h : NoAliasCycle types) (t : Ty) :
    resolveTypeIndex (types.length + 1) t types ≠ none ∧
    (∀ s, t = .prim s →
      resolveTypeIndex (types.length + 1) t types = some .primitive) ∧
    (∀ n, t = .idx n → ∃ i,
      resolveTypeIndex (types.length + 1) t types = some (.node i)) := by
  cases t with
  | prim s =>
    refine ⟨?_, fun _ _ => rfl, fun n hn => Ty.noConfusion hn⟩
    simp [resolveTypeIndex]
  | idx n =>
    have hterm := resolveLoop_terminates types h n
    cases hr : resolveLoop types n (types.length + 1) n with
    | none => exact absurd hr hterm
    | some i =>
      refine ⟨?_, fun s hs => Ty.noConfusion hs, fun m hm => ⟨i, ?_⟩⟩
      · simp [resolveTypeIndex, hr]
      · obtain rfl : n = m := Ty.idx.inj hm
        simp [resolveTypeIndex, hr]

theorem noAliasCycle_oneRecordGraph : NoAliasCycle oneRecordGraph := by
  have hstep : ∀ a b, ¬ aliasStep oneRecordGraph a b := by
    intro a b hab
    obtain ⟨d, hd, hk⟩ := hab
    match a with
    | 0 =>
      simp only [oneRecordGraph, List.getElem?_cons_zero,
        Option.some.injEq] at hd
      rw [← hd] at hk
      simp at hk
    | a + 1 => simp [oneRecordGraph] at hd
  intro i htg
  cases htg with
  | single hs => exact hstep _ _ hs
  | tail _ hs => exact hstep _ _ hs

/-- Witness for C3: the cycle-free one-record graph, on a primitive
reference and on the node reference. -/
theorem alias_resolution_terminates_witness :
    resolveTypeIndex 2 (Ty.idx 0) oneRecordGraph ≠ none ∧
    resolveTypeIndex 2 (Ty.prim "string") oneRecordGraph =
      some .primitive :=
  ⟨(alias_resolution_terminates oneRecordGraph noAliasCycle_oneRecordGraph
      (Ty.idx 0)).1,
   (alias_resolution_terminates oneRecordGraph noAliasCycle_oneRecordGraph
      (Ty.prim "string")).2.1 "string" rfl⟩

/-! ## C8: the casing transform matches the spec's description -/

theorem camelReplace_two {c d : Char} {r : List Char} :
    camelReplace (c :: d :: r) =
      if c = '-' ∧ isAsciiLower d = true then d.toUpper :: camelReplace r
      else c :: camelReplace (d :: r) := rfl

theorem ne_hyphen_of_isAsciiLower {c : Char} (h : isAsciiLower c = true) :
    c ≠ '-' := by
  intro e
  subst e
  exact absurd h (by decide)

theorem camelReplace_append_of_no_hyphen :
    ∀ (cs t : List Char), (∀ c ∈ cs, c ≠ '-') →
      camelReplace (cs ++ t) = cs ++ camelReplace t := by
  intro cs
  induction cs with
  | nil => intro t _; rfl
  | cons c cs' ih =>
    intro t h
    have hc : c ≠ '-' := h c (List.mem_cons_self c cs')
    have h' : ∀ x ∈ cs', x ≠ '-' := fun x hx => h x (List.mem_cons_of_mem c hx)
    cases hct : cs' ++ t with
    | nil =>
      obtain ⟨rfl, rfl⟩ := List.append_eq_nil.mp hct
      rfl
    | cons d r =>
      show camelReplace (c :: (cs' ++ t)) = _
      rw [hct, camelReplace_two, if_neg (fun hand => hc hand.1), ← hct,
        ih t h']
      rfl

theorem hyphenate_cons_data (w w' : String) (rest : List String) :
    (hyphenate (w :: w' :: rest)).data =
      w.data ++ ('-' :: (hyphenate (w' :: rest)).data) := by
  show ((w ++ "-") ++ hyphenate (w' :: rest)).data = _
  show (w.data ++ ['-']) ++ (hyphenate (w' :: rest)).data = _
  rw [List.append_assoc]
  rfl

theorem camelReplace_hyphenate :
    ∀ ws : List String, (∀ w ∈ ws, LowerWord w) →
      camelReplace (hyphenate ws).data = (specStem ws).data ∧
      (ws ≠ [] → camelReplace ('-' :: (hyphenate ws).data) =
        (concatWords (ws.map upperFirst)).data) := by
  intro ws
  induction ws with
  | nil => exact fun _ => ⟨rfl, fun h => absurd rfl h⟩
  | cons w rest ih =>
    intro h
    have hw : LowerWord w := h w (List.mem_cons_self w rest)
    have hrest : ∀ x ∈ rest, LowerWord x :=
      fun x hx => h x (List.mem_cons_of_mem w hx)
    have hwh : ∀ x ∈ w.data, x ≠ '-' :=
      fun x hx => ne_hyphen_of_isAsciiLower (hw.2 x hx)
    obtain ⟨c, t, hct⟩ : ∃ c t, w.data = c :: t := by
      cases hd : w.data with
      | nil => exact absurd (String.ext (hd.trans rfl)) hw.1
      | cons a b => exact ⟨a, b, rfl⟩
    have hclow : isAsciiLower c = true :=
      hw.2 c (by rw [hct]; exact List.mem_cons_self c t)
    have hL1 : camelReplace (hyphenate (w :: rest)).data =
        (specStem (w :: rest)).data := by
      cases rest with
      | nil =>
        show camelReplace w.data = (w ++ concatWords []).data
        have : camelReplace w.data = camelReplace (w.data ++ []) := by
          rw [List.append_nil]
        rw [this, camelReplace_append_of_no_hyphen _ _ hwh]
        show w.data ++ [] = w.data ++ ("" : String).data
        rfl
      | cons w' rest' =>
        rw [hyphenate_cons_data,
          camelReplace_append_of_no_hyphen _ _ hwh,
          (ih hrest).2 (by simp)]
        rfl
    refine ⟨hL1, fun _ => ?_⟩
    obtain ⟨R, hR⟩ : ∃ R, (hyphenate (w :: rest)).data = w.data ++ R := by
      cases rest with
      | nil => exact ⟨[], by simp [hyphenate]⟩
      | cons w' rest' =>
        exact ⟨'-' :: (hyphenate (w' :: rest')).data,
          hyphenate_cons_data w w' rest'⟩
    have hcp : camelReplace (t ++ R) =
        t ++ (concatWords (rest.map upperFirst)).data := by
      have h1 : camelReplace (hyphenate (w :: rest)).data =
          c :: camelReplace (t ++ R) := by
        rw [hR, hct]
        show camelReplace ([c] ++ (t ++ R)) = _
        rw [camelReplace_append_of_no_hyphen [c] (t ++ R)
          (by intro x hx
              rw [List.mem_singleton] at hx
              subst hx
              exact ne_hyphen_of_isAsciiLower hclow)]
        rfl
      have h2 := hL1
      rw [h1] at h2
      have h3 : (specStem (w :: rest)).data =
          c :: (t ++ (concatWords (rest.map upperFirst)).data) := by
        show (w ++ concatWords (rest.map upperFirst)).data = _
        show w.data ++ (concatWords (rest.map upperFirst)).data = _
        rw [hct]
        rfl
      rw [h3] at h2
      injection h2
    rw [hR, hct]
    show camelReplace ('-' :: c :: (t ++ R)) = _
    rw [camelReplace_two, if_pos ⟨rfl, hclow⟩, hcp]
    show c.toUpper :: (t ++ (concatWords (rest.map upperFirst)).data) =
      (upperFirst w ++ concatWords (rest.map upperFirst)).data
    show _ = (upperFirst w).data ++ (concatWords (rest.map upperFirst)).data
    have : (upperFirst w).data = c.toUpper :: t := by
      simp [upperFirst, hct]
    rw [this]
    rfl

/-- C8.  For every source name made of hyphenated lowercase words, the
source's casing transforms agree with the spec's description: the letter
following each hyphen is uppercased and the hyphen removed, then the first
character is lowercased for field/function names (`toCamelCase`) and
uppercased for type names (`toPascalCase`).  Both transforms are pure
functions, applied identically wherever the converter uses them. -/
theorem casing_transform_follows_spec (ws : List String) (hne : ws ≠ [])
    (hlw : ∀ w ∈ ws, LowerWord w) :
    toCamelCase (hyphenate ws) = specMemberName ws ∧
    toPascalCase (hyphenate ws) = specTypeName ws := by
  obtain ⟨w, rest, rfl⟩ : ∃ w rest, ws = w :: rest := by
    cases ws with
    | nil => exact absurd rfl hne
    | cons w rest => exact ⟨w, rest, rfl⟩
  have hw : LowerWord w := hlw w (List.mem_cons_self w rest)
  obtain ⟨c, t, hct⟩ : ∃ c t, w.data = c :: t := by
    cases hd : w.data with
    | nil => exact absurd (String.ext (hd.trans rfl)) hw.1
    | cons a b => exact ⟨a, b, rfl⟩
  have hmain := (camelReplace_hyphenate (w :: rest) hlw).1
  have hshape : (specStem (w :: rest)).data =
      c :: (t ++ (concatWords (rest.map upperFirst)).data) := by
    show (w ++ concatWords (rest.map upperFirst)).data = _
    show w.data ++ (concatWords (rest.map upperFirst)).data = _
    rw [hct]
    rfl
  constructor
  · show toCamelCase (hyphenate (w :: rest)) = lowerFirst (specStem (w :: rest))
    rw [toCamelCase, hmain, hshape, lowerFirst, hshape]
  · show toPascalCase (hyphenate (w :: rest)) = upperFirst (specStem (w :: rest))
    rw [toPascalCase, hmain, hshape, upperFirst, hshape]

/-- Witness for C8: the two-word name `foo-bar`. -/
theorem casing_transform_follows_spec_witness :
    toCamelCase (hyphenate ["foo", "bar"]) = specMemberName ["foo", "bar"] ∧
    toPascalCase (hyphenate ["foo", "bar"]) = specTypeName ["foo", "bar"] :=
  casing_transform_follows_spec ["foo", "bar"] (by decide)
    (by intro w hw
        simp only [List.mem_cons, List.not_mem_nil, or_false] at hw
        rcases hw with rfl | rfl <;>
          exact ⟨by decide, by decide⟩)

/-! ## The cache invariant and the doomed-alias-chain lemmas

`resolveTypeIndex` returns a node whose kind is still an alias only in one
situation: the chain from the original argument ends at an alias-of-primitive
node, and the *original* id is returned.  The dispatch then recurses through
the chain and necessarily ends at the `UnsupportedKind` throw, so a
successful conversion never passes through the alias-recursion branch.  The
lemmas below make that argument. -/

theorem resolveLoop_reach_eq_orig (types : List TypeDef) :
    ∀ fuel cur orig r, AliasPrimReach types cur →
      resolveLoop types orig fuel cur = some r → r = orig := by
  intro fuel
  induction fuel with
  | zero => intro cur orig r _ h; exact Option.noConfusion h
  | succ fuel ih =>
    intro cur orig r hreach h
    cases hreach with
    | base hd hk =>
      simp only [resolveLoop, hd, hk] at h
      exact (Option.some.inj h).symm
    | step hd hk hreach' =>
      simp only [resolveLoop, hd, hk] at h
      exact ih _ orig r hreach' h

theorem resolveLoop_alias_kind (types : List TypeDef) :
    ∀ fuel cur orig r d j, resolveLoop types orig fuel cur = some r →
      types[r]? = some d → d.kind = .aliasTy (.idx j) →
      r = orig ∧ AliasPrimReach types cur := by
  intro fuel
  induction fuel with
  | zero => intro cur orig r d j h _ _; exact Option.noConfusion h
  | succ fuel ih =>
    intro cur orig r d j h hr hk
    cases hd : types[cur]? with
    | none =>
      simp only [resolveLoop, hd] at h
      obtain rfl := Option.some.inj h
      rw [hd] at hr
      exact Option.noConfusion hr
    | some dcur =>
      cases hkind : dcur.kind
      case aliasTy u =>
        cases u with
        | idx k =>
          simp only [resolveLoop, hd, hkind] at h
          obtain ⟨h1, h2⟩ := ih k orig r d j h hr hk
          exact ⟨h1, .step hd hkind h2⟩
        | prim sp =>
          simp only [resolveLoop, hd, hkind] at h
          obtain rfl := Option.some.inj h
          exact ⟨rfl, .base hd hkind⟩
      all_goals
        simp only [resolveLoop, hd, hkind] at h
      all_goals
        obtain rfl := Option.some.inj h
      all_goals
        rw [hd] at hr
      all_goals
        obtain rfl := Option.some.inj hr
      all_goals
        rw [hkind] at hk
      all_goals
        exact TypeDefKind.noConfusion hk

theorem cache_miss_of_alias (types : List TypeDef) (st : BuildState)
    (isInput : Bool) (j : Nat) (d : TypeDef) (u : Ty)
    (hd : types[j]? = some d) (hk : d.kind = .aliasTy u)
    (hwf : CachesWellFormed types st) :
    st.getCache isInput j = none := by
  cases hc : st.getCache isInput j with
  | none => rfl
  | some g =>
    obtain ⟨d', hd', hnon⟩ := hwf isInput j g hc
    rw [hd] at hd'
    obtain rfl := Option.some.inj hd'
    exact absurd hk (hnon u)

theorem conv_reach_fails (types : List TypeDef) :
    ∀ fuel isInput j st, AliasPrimReach types j →
      CachesWellFormed types st → ∀ r st',
      convertWitTypeToGraphQL isInput types fuel (.idx j) st ≠
        .ok (r, st') := by
  intro fuel
  induction fuel with
  | zero =>
    intro isInput j st _ _ r st' h
    exact Except.noConfusion h
  | succ fuel ih =>
    intro isInput j st hreach hwf r st' h
    cases hr : resolveLoop types j (fuel + 1) j with
    | none =>
      have hres : resolveTypeIndex (fuel + 1) (.idx j) types = none := by
        simp [resolveTypeIndex, hr]
      simp only [convertWitTypeToGraphQL, hres] at h
      exact Except.noConfusion h
    | some r0 =>
      have hr0 : r0 = j :=
        resolveLoop_reach_eq_orig types (fuel + 1) j j r0 hreach hr
      rw [hr0] at hr
      have hres : resolveTypeIndex (fuel + 1) (.idx j) types =
          some (.node j) := by
        simp [resolveTypeIndex, hr]
      cases hreach with
      | base hd hk =>
        have hcache := cache_miss_of_alias types st isInput j _ _ hd hk hwf
        simp only [convertWitTypeToGraphQL, hres, hcache, hd, hk] at h
        exact Except.noConfusion h
      | step hd hk hreach' =>
        have hcache := cache_miss_of_alias types st isInput j _ _ hd hk hwf
        simp only [convertWitTypeToGraphQL, hres, hcache, hd, hk] at h
        exact ih isInput _ st hreach' hwf r st' h

theorem resolveTypeIndex_node {fuel : Nat} {t : Ty} {types : List TypeDef}
    {i : Nat} (h : resolveTypeIndex fuel t types = some (.node i)) :
    ∃ n, t = .idx n ∧ resolveLoop types n fuel n = some i := by
  cases t with
  | prim s =>
    simp only [resolveTypeIndex] at h
    exact ResolveResult.noConfusion (Option.some.inj h)
  | idx n =>
    refine ⟨n, rfl, ?_⟩
    simp only [resolveTypeIndex] at h
    cases hr : resolveLoop types n fuel n with
    | none => rw [hr] at h; exact Option.noConfusion h
    | some r0 =>
      rw [hr] at h
      have hri : r0 = i := ResolveResult.node.inj (Option.some.inj h)
      exact congrArg some hri

/-! ## The conversion invariants: cache well-formedness, heap growth, and
the cached-result property -/

theorem ok_pair_inj {α β γ : Type} {a r : α} {b s : β}
    (h : (Except.ok (a, b) : Except γ (α × β)) = .ok (r, s)) :
    a = r ∧ b = s := by
  injection h with h'
  exact ⟨congrArg Prod.fst h', congrArg Prod.snd h'⟩

theorem finish_setCache (types : List TypeDef) (isInput : Bool) (i : Nat)
    (d : TypeDef) (st₀ st₁ : BuildState) (g : GType)
    (hd : types[i]? = some d) (hnal : ∀ u, d.kind ≠ .aliasTy u)
    (hwf₁ : CachesWellFormed types st₁) (hext : HeapExtends st₀ st₁) :
    CachesWellFormed types (st₁.setCache isInput i g) ∧
    HeapExtends st₀ (st₁.setCache isInput i g) ∧
    (st₁.setCache isInput i g).getCache isInput i = some g := by
  refine ⟨cachesWellFormed_setCache _ _ _ hwf₁ ⟨d, hd, hnal⟩,
    heapExtends_setCache _ _ _ _ _ hext, ?_⟩
  rw [getCache_setCache_same]
  simp

/-- The workhorse invariant, by induction on the fuel, simultaneously for
the five mutually recursive conversion functions: a successful conversion
from a well-formed state yields a well-formed state, only appends to the
heap, and — for node references — leaves its own result in the
direction-selected cache under the resolved node id (primitive tags leave
the state untouched). -/
theorem conv_invariants (types : List TypeDef) : ∀ fuel : Nat,
    (∀ (isInput : Bool) (t : Ty) (st : BuildState) (r : GType)
        (st' : BuildState),
      CachesWellFormed types st →
      convertWitTypeToGraphQL isInput types fuel t st = .ok (r, st') →
      CachesWellFormed types st' ∧ HeapExtends st st' ∧
      ((∃ tag, t = .prim tag ∧ st' = st) ∨
       (∃ i, resolveTypeIndex fuel t types = some (.node i) ∧
         st'.getCache isInput i = some r))) ∧
    (∀ (isInput : Bool) (i : Nat) (d : TypeDef) (st : BuildState)
        (r : GType) (st' : BuildState),
      CachesWellFormed types st → types[i]? = some d →
      createRecordType isInput types fuel i d st = .ok (r, st') →
      CachesWellFormed types st' ∧ HeapExtends st st' ∧
        st'.getCache isInput i = some r) ∧
    (∀ (isInput : Bool) (flds : List Field) (acc : List (String × GType))
        (st : BuildState) (r : List (String × GType)) (st' : BuildState),
      CachesWellFormed types st →
      convertFieldList isInput types fuel flds acc st = .ok (r, st') →
      CachesWellFormed types st' ∧ HeapExtends st st') ∧
    (∀ (isInput : Bool) (cs : List Case) (acc : List (String × GType))
        (st : BuildState) (r : List (String × GType)) (st' : BuildState),
      CachesWellFormed types st →
      convertCaseList isInput types fuel cs acc st = .ok (r, st') →
      CachesWellFormed types st' ∧ HeapExtends st st') ∧
    (∀ (isInput : Bool) (ts : List Ty) (st : BuildState) (r : List GType)
        (st' : BuildState),
      CachesWellFormed types st →
      convertTyList isInput types fuel ts st = .ok (r, st') →
      CachesWellFormed types st' ∧ HeapExtends st st') := by
  intro fuel
  induction fuel with
  | zero =>
    refine ⟨?_, ?_, ?_, ?_, ?_⟩
    · intro _ _ _ _ _ _ h
      exact Except.noConfusion h
    · intro _ _ _ _ _ _ _ _ h
      exact Except.noConfusion h
    · intro isInput flds acc st r st' hwf h
      cases flds with
      | nil =>
        obtain ⟨rfl, rfl⟩ := ok_pair_inj h
        exact ⟨hwf, heapExtends_refl st⟩
      | cons f rest => exact Except.noConfusion h
    · intro isInput cs acc st r st' hwf h
      cases cs with
      | nil =>
        obtain ⟨rfl, rfl⟩ := ok_pair_inj h
        exact ⟨hwf, heapExtends_refl st⟩
      | cons c rest => exact Except.noConfusion h
    · intro isInput ts st r st' hwf h
      cases ts with
      | nil =>
        obtain ⟨rfl, rfl⟩ := ok_pair_inj h
        exact ⟨hwf, heapExtends_refl st⟩
      | cons t rest => exact Except.noConfusion h
  | succ fuel ih =>
    obtain ⟨ihConv, ihRec, ihFlds, ihCases, ihTys⟩ := ih
    have hconv : ∀ (isInput : Bool) (t : Ty) (st : BuildState) (r : GType)
        (st' : BuildState),
        CachesWellFormed types st →
        convertWitTypeToGraphQL isInput types (fuel + 1) t st = .ok (r, st') →
        CachesWellFormed types st' ∧ HeapExtends st st' ∧
        ((∃ tag, t = .prim tag ∧ st' = st) ∨
         (∃ i, resolveTypeIndex (fuel + 1) t types = some (.node i) ∧
           st'.getCache isInput i = some r)) := by
      intro isInput t st r st' hwf h
      cases hres : resolveTypeIndex (fuel + 1) t types with
      | none =>
        simp only [convertWitTypeToGraphQL, hres] at h
        exact Except.noConfusion h
      | some rr =>
        cases rr with
        | primitive =>
          cases t with
          | prim tag =>
            simp only [convertWitTypeToGraphQL, hres] at h
            cases hps : primScalar tag with
            | error e =>
              simp only [hps] at h
              exact Except.noConfusion h
            | ok g =>
              simp only [hps] at h
              obtain ⟨rfl, rfl⟩ := ok_pair_inj h
              exact ⟨hwf, heapExtends_refl st, .inl ⟨tag, rfl, rfl⟩⟩
          | idx n =>
            simp only [convertWitTypeToGraphQL, hres] at h
            exact Except.noConfusion h
        | node i =>
          cases hc : st.getCache isInput i with
          | some g =>
            simp only [convertWitTypeToGraphQL, hres, hc] at h
            obtain ⟨rfl, rfl⟩ := ok_pair_inj h
            exact ⟨hwf, heapExtends_refl st, .inr ⟨i, rfl, hc⟩⟩
          | none =>
            cases hd : types[i]? with
            | none =>
              simp only [convertWitTypeToGraphQL, hres, hc, hd] at h
              exact Except.noConfusion h
            | some d =>
              cases hkind : d.kind
              case record flds =>
                simp only [convertWitTypeToGraphQL, hres, hc, hd, hkind] at h
                obtain ⟨hwf', hext, hcache⟩ :=
                  ihRec isInput i d st r st' hwf hd h
                exact ⟨hwf', hext, .inr ⟨i, rfl, hcache⟩⟩
              case aliasTy u =>
                cases u with
                | prim sp =>
                  simp only [convertWitTypeToGraphQL, hres, hc, hd, hkind] at h
                  exact Except.noConfusion h
                | idx k =>
                  simp only [convertWitTypeToGraphQL, hres, hc, hd, hkind] at h
                  obtain ⟨n, rfl, hloop⟩ := resolveTypeIndex_node hres
                  obtain ⟨hin, hreach⟩ := resolveLoop_alias_kind types
                    (fuel + 1) n n i d k hloop hd hkind
                  have hdn : types[n]? = some d := hin ▸ hd
                  have hreach' : AliasPrimReach types k := by
                    cases hreach with
                    | base hd2 hk2 =>
                      rw [hdn] at hd2
                      obtain rfl := Option.some.inj hd2
                      rw [hkind] at hk2
                      exact Ty.noConfusion (TypeDefKind.aliasTy.inj hk2)
                    | step hd2 hk2 hr2 =>
                      rw [hdn] at hd2
                      obtain rfl := Option.some.inj hd2
                      rw [hkind] at hk2
                      have hkj := Ty.idx.inj (TypeDefKind.aliasTy.inj hk2)
                      rw [hkj]
                      exact hr2
                  exact absurd h
                    (conv_reach_fails types fuel isInput k st hreach' hwf r st')
              case resource =>
                simp only [convertWitTypeToGraphQL, hres, hc, hd, hkind] at h
                obtain ⟨rfl, rfl⟩ := ok_pair_inj h
                obtain ⟨w1, w2, w3⟩ := finish_setCache types isInput i d st st
                  .gString hd (fun u => by rw [hkind]; simp) hwf
                  (heapExtends_refl st)
                exact ⟨w1, w2, .inr ⟨i, rfl, w3⟩⟩
              case enum cs =>
                simp only [convertWitTypeToGraphQL, hres, hc, hd, hkind] at h
                obtain ⟨rfl, rfl⟩ := ok_pair_inj h
                obtain ⟨w1, w2, w3⟩ := finish_setCache types isInput i d st st
                  .gString hd (fun u => by rw [hkind]; simp) hwf
                  (heapExtends_refl st)
                exact ⟨w1, w2, .inr ⟨i, rfl, w3⟩⟩
              case handle own borrow =>
                simp only [convertWitTypeToGraphQL, hres, hc, hd, hkind] at h
                obtain ⟨rfl, rfl⟩ := ok_pair_inj h
                obtain ⟨w1, w2, w3⟩ := finish_setCache types isInput i d st st
                  .gString hd (fun u => by rw [hkind]; simp) hwf
                  (heapExtends_refl st)
                exact ⟨w1, w2, .inr ⟨i, rfl, w3⟩⟩
              case flags fl =>
                simp only [convertWitTypeToGraphQL, hres, hc, hd, hkind] at h
                obtain ⟨rfl, rfl⟩ := ok_pair_inj h
                obtain ⟨w1, w2, w3⟩ := finish_setCache types isInput i d st st
                  .gString hd (fun u => by rw [hkind]; simp) hwf
                  (heapExtends_refl st)
                exact ⟨w1, w2, .inr ⟨i, rfl, w3⟩⟩
              case future t0 =>
                simp only [convertWitTypeToGraphQL, hres, hc, hd, hkind] at h
                obtain ⟨rfl, rfl⟩ := ok_pair_inj h
                obtain ⟨w1, w2, w3⟩ := finish_setCache types isInput i d st st
                  .gString hd (fun u => by rw [hkind]; simp) hwf
                  (heapExtends_refl st)
                exact ⟨w1, w2, .inr ⟨i, rfl, w3⟩⟩
              case stream t0 =>
                simp only [convertWitTypeToGraphQL, hres, hc, hd, hkind] at h
                obtain ⟨rfl, rfl⟩ := ok_pair_inj h
                obtain ⟨w1, w2, w3⟩ := finish_setCache types isInput i d st st
                  .gString hd (fun u => by rw [hkind]; simp) hwf
                  (heapExtends_refl st)
                exact ⟨w1, w2, .inr ⟨i, rfl, w3⟩⟩
              case list t' =>
                simp only [convertWitTypeToGraphQL, hres, hc, hd, hkind] at h
                cases hca : convertWitTypeToGraphQL isInput types fuel t' st with
                | error e =>
                  simp only [hca] at h
                  exact Except.noConfusion h
                | ok p =>
                  obtain ⟨g, st₁⟩ := p
                  simp only [hca, BuildState.alloc] at h
                  obtain ⟨rfl, rfl⟩ := ok_pair_inj h
                  obtain ⟨hwf₁, hext₁, _⟩ := ihConv isInput t' st g st₁ hwf hca
                  obtain ⟨w1, w2, w3⟩ := finish_setCache types isInput i d st
                    (st₁.alloc (.listType g)).2 (st₁.alloc (.listType g)).1
                    hd (fun u => by rw [hkind]; simp)
                    (cachesWellFormed_alloc _ hwf₁)
                    (heapExtends_trans hext₁ (heapExtends_alloc st₁ _))
                  exact ⟨w1, w2, .inr ⟨i, rfl, w3⟩⟩
              case option t' =>
                simp only [convertWitTypeToGraphQL, hres, hc, hd, hkind] at h
                cases hca : convertWitTypeToGraphQL isInput types fuel t' st with
                | error e =>
                  simp only [hca] at h
                  exact Except.noConfusion h
                | ok p =>
                  obtain ⟨g, st₁⟩ := p
                  simp only [hca] at h
                  obtain ⟨rfl, rfl⟩ := ok_pair_inj h
                  obtain ⟨hwf₁, hext₁, _⟩ := ihConv isInput t' st g st₁ hwf hca
                  obtain ⟨w1, w2, w3⟩ := finish_setCache types isInput i d st
                    st₁ g hd (fun u => by rw [hkind]; simp) hwf₁ hext₁
                  exact ⟨w1, w2, .inr ⟨i, rfl, w3⟩⟩
              case result okT errT =>
                simp only [convertWitTypeToGraphQL, hres, hc, hd, hkind] at h
                have hstep1 : ∀ (st₀ : BuildState), CachesWellFormed types st₀ →
                    ∀ (out : Except ConvError (GType × BuildState)) g₀ st₁,
                    (match okT with
                     | some t' => convertWitTypeToGraphQL isInput types fuel t' st₀
                     | none => (.ok (.gBoolean, st₀) :
                         Except ConvError (GType × BuildState))) = out →
                    out = .ok (g₀, st₁) →
                    CachesWellFormed types st₁ ∧ HeapExtends st₀ st₁ := by
                  intro st₀ hwf₀ out g₀ st₁ hm hout
                  subst hm
                  cases okT with
                  | none =>
                    obtain ⟨rfl, rfl⟩ := ok_pair_inj hout
                    exact ⟨hwf₀, heapExtends_refl st₀⟩
                  | some t1 =>
                    obtain ⟨hw, he, _⟩ := ihConv isInput t1 st₀ g₀ st₁ hwf₀ hout
                    exact ⟨hw, he⟩
                have hstep2 : ∀ (st₀ : BuildState), CachesWellFormed types st₀ →
                    ∀ (out : Except ConvError (GType × BuildState)) g₀ st₁,
                    (match errT with
                     | some t' => convertWitTypeToGraphQL isInput types fuel t' st₀
                     | none => (.ok (.gString, st₀) :
                         Except ConvError (GType × BuildState))) = out →
                    out = .ok (g₀, st₁) →
                    CachesWellFormed types st₁ ∧ HeapExtends st₀ st₁ := by
                  intro st₀ hwf₀ out g₀ st₁ hm hout
                  subst hm
                  cases errT with
                  | none =>
                    obtain ⟨rfl, rfl⟩ := ok_pair_inj hout
                    exact ⟨hwf₀, heapExtends_refl st₀⟩
                  | some t2 =>
                    obtain ⟨hw, he, _⟩ := ihConv isInput t2 st₀ g₀ st₁ hwf₀ hout
                    exact ⟨hw, he⟩
                split at h
                · exact Except.noConfusion h
                · rename_i okG st₁ hm1
                  split at h
                  · exact Except.noConfusion h
                  · rename_i errG st₂ hm2
                    simp only [BuildState.alloc] at h
                    obtain ⟨rfl, rfl⟩ := ok_pair_inj h
                    obtain ⟨hwf₁, hext₁⟩ := hstep1 st hwf _ okG st₁ rfl hm1
                    obtain ⟨hwf₂, hext₂⟩ := hstep2 st₁ hwf₁ _ errG st₂ rfl hm2
                    obtain ⟨w1, w2, w3⟩ := finish_setCache types isInput i d st
                      (st₂.alloc (mkObjectType isInput ("Result_" ++ toString i)
                        [("ok", okG), ("error", errG)])).2
                      (st₂.alloc (mkObjectType isInput ("Result_" ++ toString i)
                        [("ok", okG), ("error", errG)])).1
                      hd (fun u => by rw [hkind]; simp)
                      (cachesWellFormed_alloc _ hwf₂)
                      (heapExtends_trans (heapExtends_trans hext₁ hext₂)
                        (heapExtends_alloc st₂ _))
                    exact ⟨w1, w2, .inr ⟨i, rfl, w3⟩⟩
              case tuple ts =>
                simp only [convertWitTypeToGraphQL, hres, hc, hd, hkind] at h
                cases htl : convertTyList isInput types fuel ts st with
                | error e =>
                  simp only [htl] at h
                  exact Except.noConfusion h
                | ok q =>
                  obtain ⟨gs, st₂⟩ := q
                  cases gs with
                  | nil =>
                    simp only [htl] at h
                    exact Except.noConfusion h
                  | cons g rest =>
                    simp only [htl, BuildState.alloc] at h
                    obtain ⟨rfl, rfl⟩ := ok_pair_inj h
                    obtain ⟨hwf₂, hext₂⟩ :=
                      ihTys isInput ts st (g :: rest) st₂ hwf htl
                    obtain ⟨w1, w2, w3⟩ := finish_setCache types isInput i d st
                      (st₂.alloc (.listType g)).2 (st₂.alloc (.listType g)).1
                      hd (fun u => by rw [hkind]; simp)
                      (cachesWellFormed_alloc _ hwf₂)
                      (heapExtends_trans hext₂ (heapExtends_alloc st₂ _))
                    exact ⟨w1, w2, .inr ⟨i, rfl, w3⟩⟩
              case variant cs =>
                simp only [convertWitTypeToGraphQL, hres, hc, hd, hkind] at h
                cases hcl : convertCaseList isInput types fuel cs
                    [("type", GType.gString)] st with
                | error e =>
                  simp only [hcl] at h
                  exact Except.noConfusion h
                | ok q =>
                  obtain ⟨gflds, st₂⟩ := q
                  simp only [hcl, BuildState.alloc] at h
                  obtain ⟨rfl, rfl⟩ := ok_pair_inj h
                  obtain ⟨hwf₂, hext₂⟩ :=
                    ihCases isInput cs [("type", GType.gString)] st gflds st₂
                      hwf hcl
                  obtain ⟨w1, w2, w3⟩ := finish_setCache types isInput i d st
                    (st₂.alloc (mkObjectType isInput (variantTypeName d i)
                      gflds)).2
                    (st₂.alloc (mkObjectType isInput (variantTypeName d i)
                      gflds)).1
                    hd (fun u => by rw [hkind]; simp)
                    (cachesWellFormed_alloc _ hwf₂)
                    (heapExtends_trans hext₂ (heapExtends_alloc st₂ _))
                  exact ⟨w1, w2, .inr ⟨i, rfl, w3⟩⟩
    have hrec : ∀ (isInput : Bool) (i : Nat) (d : TypeDef) (st : BuildState)
        (r : GType) (st' : BuildState),
        CachesWellFormed types st → types[i]? = some d →
        createRecordType isInput types (fuel + 1) i d st = .ok (r, st') →
        CachesWellFormed types st' ∧ HeapExtends st st' ∧
          st'.getCache isInput i = some r := by
      intro isInput i d st r st' hwf hd h
      cases hkind : d.kind <;> simp only [createRecordType, hkind] at h <;>
        try exact Except.noConfusion h
      case record flds =>
        simp only [BuildState.alloc] at h
        split at h
        · exact Except.noConfusion h
        · rename_i gflds st₃ heq
          obtain ⟨rfl, rfl⟩ := ok_pair_inj h
          have hok : CacheOkAt types i :=
            ⟨d, hd, fun u => by rw [hkind]; simp⟩
          have hwf₂ : CachesWellFormed types
              ((st.alloc (mkObjectType isInput
                (recordTypeName d i isInput) [])).2.setCache isInput i
                (.ref st.heap.length)) :=
            cachesWellFormed_setCache _ _ _ (cachesWellFormed_alloc _ hwf) hok
          obtain ⟨hwf₃, hext₃⟩ := ihFlds isInput flds [] _ gflds st₃ hwf₂ heq
          obtain ⟨w1, w2, w3⟩ := finish_setCache types isInput i d st₃
            (st₃.alloc (mkObjectType isInput
              (recordTypeName d i isInput) gflds)).2
            (st₃.alloc (mkObjectType isInput
              (recordTypeName d i isInput) gflds)).1
            hd (fun u => by rw [hkind]; simp)
            (cachesWellFormed_alloc _ hwf₃)
            (heapExtends_alloc st₃ _)
          refine ⟨w1, ?_, w3⟩
          have e1 : HeapExtends st
              ((st.alloc (mkObjectType isInput
                (recordTypeName d i isInput) [])).2.setCache isInput i
                (.ref st.heap.length)) :=
            heapExtends_setCache _ _ _ _ _ (heapExtends_alloc st _)
          exact heapExtends_trans (heapExtends_trans e1 hext₃) w2
    have hflds : ∀ (isInput : Bool) (flds : List Field)
        (acc : List (String × GType)) (st : BuildState)
        (r : List (String × GType)) (st' : BuildState),
        CachesWellFormed types st →
        convertFieldList isInput types (fuel + 1) flds acc st = .ok (r, st') →
        CachesWellFormed types st' ∧ HeapExtends st st' := by
      intro isInput flds acc st r st' hwf h
      cases flds with
      | nil =>
        obtain ⟨rfl, rfl⟩ := ok_pair_inj h
        exact ⟨hwf, heapExtends_refl st⟩
      | cons f rest =>
        simp only [convertFieldList] at h
        cases hca : convertWitTypeToGraphQL isInput types fuel f.type st with
        | error e =>
          simp only [hca] at h
          exact Except.noConfusion h
        | ok p =>
          obtain ⟨g, st₁⟩ := p
          simp only [hca] at h
          obtain ⟨hwf₁, hext₁, _⟩ := ihConv isInput f.type st g st₁ hwf hca
          obtain ⟨hwf', hext'⟩ := ihFlds isInput rest _ st₁ r st' hwf₁ h
          exact ⟨hwf', heapExtends_trans hext₁ hext'⟩
    have hcases : ∀ (isInput : Bool) (cs : List Case)
        (acc : List (String × GType)) (st : BuildState)
        (r : List (String × GType)) (st' : BuildState),
        CachesWellFormed types st →
        convertCaseList isInput types (fuel + 1) cs acc st = .ok (r, st') →
        CachesWellFormed types st' ∧ HeapExtends st st' := by
      intro isInput cs acc st r st' hwf h
      cases cs with
      | nil =>
        obtain ⟨rfl, rfl⟩ := ok_pair_inj h
        exact ⟨hwf, heapExtends_refl st⟩
      | cons c rest =>
        simp only [convertCaseList] at h
        cases hct : c.type with
        | none =>
          simp only [hct] at h
          exact ihCases isInput rest _ st r st' hwf h
        | some t1 =>
          simp only [hct] at h
          cases hca : convertWitTypeToGraphQL isInput types fuel t1 st with
          | error e =>
            simp only [hca] at h
            exact Except.noConfusion h
          | ok p =>
            obtain ⟨g, st₁⟩ := p
            simp only [hca] at h
            obtain ⟨hwf₁, hext₁, _⟩ := ihConv isInput t1 st g st₁ hwf hca
            obtain ⟨hwf', hext'⟩ := ihCases isInput rest _ st₁ r st' hwf₁ h
            exact ⟨hwf', heapExtends_trans hext₁ hext'⟩
    have htys : ∀ (isInput : Bool) (ts : List Ty) (st : BuildState)
        (r : List GType) (st' : BuildState),
        CachesWellFormed types st →
        convertTyList isInput types (fuel + 1) ts st = .ok (r, st') →
        CachesWellFormed types st' ∧ HeapExtends st st' := by
      intro isInput ts st r st' hwf h
      cases ts with
      | nil =>
        obtain ⟨rfl, rfl⟩ := ok_pair_inj h
        exact ⟨hwf, heapExtends_refl st⟩
      | cons t1 rest =>
        simp only [convertTyList] at h
        cases hca : convertWitTypeToGraphQL isInput types fuel t1 st with
        | error e =>
          simp only [hca] at h
          exact Except.noConfusion h
        | ok p =>
          obtain ⟨g, st₁⟩ := p
          simp only [hca] at h
          cases htl : convertTyList isInput types fuel rest st₁ with
          | error e =>
            simp only [htl] at h
            exact Except.noConfusion h
          | ok q =>
            obtain ⟨gs, st₂⟩ := q
            simp only [htl] at h
            obtain ⟨rfl, rfl⟩ := ok_pair_inj h
            obtain ⟨hwf₁, hext₁, _⟩ := ihConv isInput t1 st g st₁ hwf hca
            obtain ⟨hwf₂, hext₂⟩ := ihTys isInput rest st₁ gs st₂ hwf₁ htl
            exact ⟨hwf₂, heapExtends_trans hext₁ hext₂⟩
    exact ⟨hconv, hrec, hflds, hcases, htys⟩

/-! ## C5: cache idempotence -/

/-- C5.  Within one schema build (whose states are cache-well-formed,
starting from `BuildState.init`), converting the same type reference twice
in the same direction returns the identical, reference-equal schema type
object: a second successful conversion is a cache hit (or the same scalar
singleton for a primitive tag) and leaves the state untouched. -/
theorem conversion_cache_idempotent (isInput : Bool) (fuel : Nat)
    (types : List TypeDef) (t : Ty) (st : BuildState) (r : GType)
    (st' : BuildState) (hwf : CachesWellFormed types st)
    (h : convertWitTypeToGraphQL isInput types fuel t st = .ok (r, st')) :
    convertWitTypeToGraphQL isInput types fuel t st' = .ok (r, st') := by
  obtain ⟨hwf', hext, hdisj⟩ :=
    (conv_invariants types fuel).1 isInput t st r st' hwf h
  rcases hdisj with ⟨tag, rfl, rfl⟩ | ⟨i, hres2, hcache⟩
  · exact h
  · cases fuel with
    | zero => exact Except.noConfusion h
    | succ f =>
      simp only [convertWitTypeToGraphQL, hres2, hcache]

/-- Witness for C5: the self-referential record graph; the second
conversion of node 0 from the state the first one produced returns the same
`ref 1` object and the same state. -/
theorem conversion_cache_idempotent_witness :
    convertWitTypeToGraphQL false selfRecGraph 10 (.idx 0)
      selfRecFinalState =
    .ok (.ref 1,
      selfRecFinalState) :=
  conversion_cache_idempotent false 10 selfRecGraph (.idx 0)
    BuildState.init (.ref 1)
    selfRecFinalState
    (cachesWellFormed_init selfRecGraph) rfl

/-! ## C1: the record placeholder is replaced, not populated in place -/

/-- Counterexample to C1 as stated.  For the record `node` whose field
`self` refers back to the record itself, the build succeeds, but the
enclosing record's returned type is the second allocated object (`ref 1`)
whose `self` member's type is the first allocated object (`ref 0`) — the
placeholder — and that placeholder's member set is still empty in the final
heap: the cache entry was replaced by a new object, not populated in place,
and the self-referential field's type is not reference-equal to the type
returned for the enclosing record. -/
theorem record_self_reference_not_reference_equal :
    convertWitTypeToGraphQL false selfRecGraph 10 (.idx 0) .init =
      .ok (.ref 1,
        selfRecFinalState) ∧
    heapObj selfRecFinalState (.ref 1) =
      some (.objectType "Node" [("self", .ref 0)]) ∧
    heapObj selfRecFinalState (.ref 0) =
      some (.objectType "Node" []) ∧
    (GType.ref 0 : GType) ≠ .ref 1 :=
  ⟨rfl, rfl, rfl, by decide⟩

/-- C1 (amended).  For every record node, conversion first registers a
fresh empty placeholder object in the direction's cache, then builds the
member types (recursive references resolve to the placeholder through the
cache, so the build of a self-referential record succeeds), and then
constructs a *new* object from the built members and replaces the cache
entry with it: the returned type is a different object from the
placeholder, the placeholder's member set remains empty in the final heap,
and the final cache maps the node to the new object — so a self-referential
field's type (the placeholder) is not reference-equal to the returned
record type. -/
theorem record_placeholder_then_replace (isInput : Bool) (fuel : Nat)
    (types : List TypeDef) (i : Nat) (d : TypeDef) (st : BuildState)
    (r : GType) (st' : BuildState)
    (hwf : CachesWellFormed types st) (hd : types[i]? = some d)
    (h : createRecordType isInput types (fuel + 1) i d st = .ok (r, st')) :
    ∃ flds gflds st₃,
      d.kind = .record flds ∧
      convertFieldList isInput types fuel flds []
        ((st.alloc (mkObjectType isInput (recordTypeName d i isInput)
          [])).2.setCache isInput i (.ref st.heap.length)) =
        .ok (gflds, st₃) ∧
      r = .ref st₃.heap.length ∧
      r ≠ .ref st.heap.length ∧
      heapObj st' (.ref st.heap.length) =
        some (mkObjectType isInput (recordTypeName d i isInput) []) ∧
      heapObj st' r =
        some (mkObjectType isInput (recordTypeName d i isInput) gflds) ∧
      st'.getCache isInput i = some r := by
  cases hkind : d.kind <;> simp only [createRecordType, hkind] at h <;>
    try exact Except.noConfusion h
  case record flds =>
    simp only [BuildState.alloc] at h
    split at h
    · exact Except.noConfusion h
    · rename_i gflds st₃ heq
      obtain ⟨rfl, rfl⟩ := ok_pair_inj h
      have hok : CacheOkAt types i := ⟨d, hd, fun u => by rw [hkind]; simp⟩
      have hwf₂ : CachesWellFormed types
          ((st.alloc (mkObjectType isInput (recordTypeName d i isInput)
            [])).2.setCache isInput i (.ref st.heap.length)) :=
        cachesWellFormed_setCache _ _ _ (cachesWellFormed_alloc _ hwf) hok
      obtain ⟨hwf₃, hext₃⟩ :=
        (conv_invariants types fuel).2.2.1 isInput flds [] _ gflds st₃ hwf₂ heq
      have hplen : ((st.alloc (mkObjectType isInput
          (recordTypeName d i isInput) [])).2.setCache isInput i
          (.ref st.heap.length)).heap.length = st.heap.length + 1 := by
        rw [setCache_heap]
        simp [BuildState.alloc]
      have hlen : st.heap.length < st₃.heap.length := by
        have h1 := heapExtends_length hext₃
        omega
      have hph0 : ((st.alloc (mkObjectType isInput
          (recordTypeName d i isInput) [])).2.setCache isInput i
          (.ref st.heap.length)).heap[st.heap.length]? =
          some (mkObjectType isInput (recordTypeName d i isInput) []) := by
        rw [setCache_heap]
        exact getElem?_append_length st.heap _
      have hph3 : st₃.heap[st.heap.length]? =
          some (mkObjectType isInput (recordTypeName d i isInput) []) :=
        heapExtends_lookup hext₃ hph0
      refine ⟨flds, gflds, st₃, rfl, heq, rfl, ?_, ?_, ?_, ?_⟩
      · intro e
        have := GType.ref.inj e
        omega
      · simp only [heapObj, setCache_heap]
        exact heapExtends_lookup (heapExtends_alloc st₃ _) hph3
      · simp only [heapObj, setCache_heap, alloc_snd_heap]
        exact getElem?_append_length st₃.heap _
      · rw [getCache_setCache_same]
        simp

/-- Witness for the amended C1, at the self-referential record `node`:
the build succeeds, the placeholder is `ref 0` (empty member set in the
final heap), the returned type is `ref 1` carrying the member whose type is
the placeholder, and the cache ends up mapping node 0 to `ref 1`. -/
theorem record_placeholder_then_replace_witness :
    ∃ flds gflds st₃,
      selfRecNode.kind = .record flds ∧
      convertFieldList false selfRecGraph 8 flds []
        ((BuildState.init.alloc (mkObjectType false
          (recordTypeName selfRecNode 0 false)
          [])).2.setCache false 0 (.ref BuildState.init.heap.length)) =
        .ok (gflds, st₃) ∧
      (GType.ref 1 : GType) = .ref st₃.heap.length ∧
      (GType.ref 1 : GType) ≠ .ref BuildState.init.heap.length ∧
      heapObj selfRecFinalState (.ref BuildState.init.heap.length) =
        some (mkObjectType false (recordTypeName selfRecNode 0 false) []) ∧
      heapObj selfRecFinalState (.ref 1) =
        some (mkObjectType false (recordTypeName selfRecNode 0 false)
          gflds) ∧
      BuildState.getCache selfRecFinalState false 0 = some (.ref 1) :=
  record_placeholder_then_replace false 8 selfRecGraph 0 selfRecNode
    BuildState.init (.ref 1)
    selfRecFinalState
    (cachesWellFormed_init selfRecGraph) rfl rfl

/-! ## C7: the resolver wraps invocation failures -/

/-- C7.  If the bound native function is found in the table and
throws/rejects once the arguments have been projected, the resolver catches
the failure and re-raises an `Error` whose message embeds the function's
original declared name — `Error executing <name>: <message>` for an `Error`
rejection, `Unknown error executing <name>` otherwise — and never resolves
successfully (the failure is not swallowed). -/
theorem resolver_wraps_invocation_failure (module : ModuleTable)
    (fld : GFieldDef) (input : JSValue) (args : List JSValue)
    (g : List JSValue → Except JSError JSValue) (e : JSError)
    (hlookup : objGet module (toCamelCase fld.resolverName) = some g)
    (hargs : projectArgs input fld.resolverParams = .ok args)
    (hfail : g args = .error e) :
    (∀ v, resolveField module fld input ≠ .ok v) ∧
    ((∃ m, e = .error m ∧ resolveField module fld input =
        .error ("Error executing " ++ fld.resolverName ++ ": " ++ m)) ∨
     (e = .nonError ∧ resolveField module fld input =
        .error ("Unknown error executing " ++ fld.resolverName))) ∧
    (∃ pre suf, resolveField module fld input =
        .error (pre ++ fld.resolverName ++ suf)) := by
  cases e with
  | error m =>
    have hrun : resolveField module fld input =
        .error ("Error executing " ++ fld.resolverName ++ ": " ++ m) := by
      simp only [resolveField, hargs, moduleCall, hlookup, hfail]
    refine ⟨fun v hv => ?_, .inl ⟨m, rfl, hrun⟩,
      ⟨"Error executing ", ": " ++ m, ?_⟩⟩
    · rw [hrun] at hv
      exact Except.noConfusion hv
    · rw [hrun]
      have : "Error executing " ++ fld.resolverName ++ ": " ++ m =
          "Error executing " ++ fld.resolverName ++ (": " ++ m) := by
        rw [String.append_assoc]
      rw [this]
  | nonError =>
    have hrun : resolveField module fld input =
        .error ("Unknown error executing " ++ fld.resolverName) := by
      simp only [resolveField, hargs, moduleCall, hlookup, hfail]
    refine ⟨fun v hv => ?_, .inr ⟨rfl, hrun⟩,
      ⟨"Unknown error executing ", "", ?_⟩⟩
    · rw [hrun] at hv
      exact Except.noConfusion hv
    · rw [hrun]
      have : "Unknown error executing " ++ fld.resolverName =
          "Unknown error executing " ++ fld.resolverName ++ "" := by
        rw [String.append_empty]
      rw [← this]

/-- Witness for C7: the `reverse` field bound to a native function that
rejects with an `Error` of message `boom`. -/
theorem resolver_wraps_invocation_failure_witness :
    (∀ v, resolveField [("reverse", fun _ => .error (.error "boom"))]
        reverseFieldDef (.obj [("str", .str "hello")]) ≠ .ok v) ∧
    ((∃ m, (JSError.error "boom") = .error m ∧
        resolveField [("reverse", fun _ => .error (.error "boom"))]
          reverseFieldDef (.obj [("str", .str "hello")]) =
          .error ("Error executing " ++ reverseFieldDef.resolverName ++
            ": " ++ m)) ∨
     ((JSError.error "boom") = .nonError ∧
        resolveField [("reverse", fun _ => .error (.error "boom"))]
          reverseFieldDef (.obj [("str", .str "hello")]) =
          .error ("Unknown error executing " ++
            reverseFieldDef.resolverName))) ∧
    (∃ pre suf, resolveField [("reverse", fun _ => .error (.error "boom"))]
        reverseFieldDef (.obj [("str", .str "hello")]) =
        .error (pre ++ reverseFieldDef.resolverName ++ suf)) :=
  resolver_wraps_invocation_failure
    [("reverse", fun _ => .error (.error "boom"))] reverseFieldDef
    (.obj [("str", .str "hello")]) [.str "hello"]
    (fun _ => .error (.error "boom")) (.error "boom") rfl rfl rfl

/-! ## C4: the function binder -/

theorem mem_objInsert_keys {α : Type} (m : List (String × α)) (k' k : String)
    (v : α) :
    k' ∈ (objInsert m k v).map Prod.fst ↔ k' = k ∨ k' ∈ m.map Prod.fst := by
  rw [objInsert_keys]
  by_cases hm : k ∈ m.map Prod.fst
  · rw [if_pos hm]
    constructor
    · exact fun h => .inr h
    · rintro (rfl | h)
      · exact hm
      · exact h
  · rw [if_neg hm]
    simp [List.mem_append, or_comm]

theorem buildInputParams_extends (fuel : Nat) (types : List TypeDef) :
    ∀ (ps : List Param) (acc : List (String × GType)) (st : BuildState)
      (flds : List (String × GType)) (st' : BuildState),
      CachesWellFormed types st →
      buildInputParams fuel types ps acc st = .ok (flds, st') →
      CachesWellFormed types st' ∧ HeapExtends st st' := by
  intro ps
  induction ps with
  | nil =>
    intro acc st flds st' hwf h
    obtain ⟨rfl, rfl⟩ := ok_pair_inj h
    exact ⟨hwf, heapExtends_refl st⟩
  | cons p rest ih =>
    intro acc st flds st' hwf h
    simp only [buildInputParams] at h
    cases hca : convertWitTypeToGraphQLInput fuel types p.type st with
    | error e =>
      simp only [hca] at h
      exact Except.noConfusion h
    | ok q =>
      obtain ⟨g, st₁⟩ := q
      simp only [hca, BuildState.alloc] at h
      obtain ⟨hwf₁, hext₁, _⟩ := (conv_invariants types fuel).1 true p.type
        st g st₁ hwf (by simpa [convertWitTypeToGraphQLInput] using hca)
      obtain ⟨hwf', hext'⟩ := ih _ _ flds st'
        (cachesWellFormed_alloc _ hwf₁) h
      exact ⟨hwf', heapExtends_trans
        (heapExtends_trans hext₁ (heapExtends_alloc st₁ _)) hext'⟩

theorem buildInputParams_spec (fuel : Nat) (types : List TypeDef) :
    ∀ (ps : List Param) (acc : List (String × GType)) (st : BuildState)
      (flds : List (String × GType)) (st' : BuildState),
      CachesWellFormed types st →
      (acc.map Prod.fst ++ ps.map fun p => toCamelCase p.name).Nodup →
      buildInputParams fuel types ps acc st = .ok (flds, st') →
      ∃ ents, flds = acc ++ ents ∧
        ents.map Prod.fst = ps.map (fun p => toCamelCase p.name) ∧
        ∀ e ∈ ents, ∃ g, heapObj st' e.2 = some (.nonNullType g) := by
  intro ps
  induction ps with
  | nil =>
    intro acc st flds st' hwf hnd h
    obtain ⟨rfl, rfl⟩ := ok_pair_inj h
    exact ⟨[], by simp, rfl, by simp⟩
  | cons p rest ih =>
    intro acc st flds st' hwf hnd h
    simp only [buildInputParams] at h
    cases hca : convertWitTypeToGraphQLInput fuel types p.type st with
    | error e =>
      simp only [hca] at h
      exact Except.noConfusion h
    | ok q =>
      obtain ⟨g, st₁⟩ := q
      simp only [hca, BuildState.alloc] at h
      have hknotin : toCamelCase p.name ∉ acc.map Prod.fst := by
        intro hmem
        exact (List.disjoint_of_nodup_append hnd) hmem (by simp)
      have hins : objInsert acc (toCamelCase p.name)
          (GType.ref st₁.heap.length) =
          acc ++ [(toCamelCase p.name, GType.ref st₁.heap.length)] :=
        objInsert_append_of_not_mem _ _ _ hknotin
      rw [hins] at h
      have hnd' : ((acc ++ [(toCamelCase p.name,
          GType.ref st₁.heap.length)]).map Prod.fst ++
          rest.map fun p => toCamelCase p.name).Nodup := by
        simpa [List.append_assoc] using hnd
      obtain ⟨hwf₁, hext₁, _⟩ := (conv_invariants types fuel).1 true p.type
        st g st₁ hwf (by simpa [convertWitTypeToGraphQLInput] using hca)
      obtain ⟨ents', hflds, hnames, hheap⟩ := ih _ _ flds st'
        (cachesWellFormed_alloc _ hwf₁) hnd' h
      refine ⟨(toCamelCase p.name, GType.ref st₁.heap.length) :: ents',
        ?_, ?_, ?_⟩
      · rw [hflds, List.append_assoc]
        rfl
      · simp [hnames]
      · intro e he
        rcases List.mem_cons.mp he with rfl | he'
        · obtain ⟨_, hext'⟩ := buildInputParams_extends fuel types rest _ _
            flds st' (cachesWellFormed_alloc _ hwf₁) h
          refine ⟨g, ?_⟩
          simp only [heapObj]
          exact heapExtends_lookup hext' (getElem?_append_length st₁.heap _)
        · exact hheap e he'

theorem projectArgs_obj (fs : List (String × JSValue)) :
    ∀ ps : List Param, projectArgs (.obj fs) ps =
      .ok (ps.map fun p => (objGet fs (toCamelCase p.name)).getD .undefined) := by
  intro ps
  induction ps with
  | nil => rfl
  | cons p rest ih => simp [projectArgs, jsGetProp, ih]

/-- C4.  The function binder, in four parts.
(1) `createInputType` builds one input object type named
`<PascalCase(name)>Input` with, for each declared parameter in order, one
member under the camel-cased parameter name whose type is a
`GraphQLNonNull` wrapper (required), the wrapped types being the
input-direction conversions of the parameter types (the no-collision
hypothesis on the camel-cased names reflects distinct well-formed source
names).
(2) `bindFunctionExport` gives the root field that input type as its single
`input` argument, sets the output type to the output-direction conversion
of the declared result — or Boolean when no result is declared — and
captures the declared name and parameter list for the resolver.
(3) The resolver's projection turns the `input` object into the positional
argument list following the declared parameter order, looking each member
up under the casing-transformed parameter name.
(4) The resolver invokes the table entry under the casing-transformed
function name and returns a fulfilled result unmodified. -/
theorem function_binder_spec :
    (∀ (fuel : Nat) (types : List TypeDef) (name : String)
        (params : List Param) (st : BuildState) (t : GType)
        (st' : BuildState),
      CachesWellFormed types st →
      (params.map fun p => toCamelCase p.name).Nodup →
      createInputType fuel types name params st = .ok (t, st') →
      ∃ ents, heapObj st' t =
          some (.inputObjectType (toPascalCase name ++ "Input") ents) ∧
        ents.map Prod.fst = params.map (fun p => toCamelCase p.name) ∧
        ∀ e ∈ ents, ∃ g, heapObj st' e.2 = some (.nonNullType g)) ∧
    (∀ (fuel : Nat) (types : List TypeDef) (name : String) (func : Func)
        (st : BuildState) (fld : GFieldDef) (st' : BuildState),
      bindFunctionExport fuel types name func st = .ok (fld, st') →
      fld.resolverName = name ∧ fld.resolverParams = func.params ∧
      ∃ st₁, createInputType fuel types name func.params st =
          .ok (fld.inputType, st₁) ∧
        ((func.result = none ∧ fld.type = .gBoolean ∧ st' = st₁) ∨
         (∃ rty, func.result = some rty ∧
           convertWitTypeToGraphQLOutput fuel types rty st₁ =
             .ok (fld.type, st')))) ∧
    (∀ (fs : List (String × JSValue)) (ps : List Param),
      projectArgs (.obj fs) ps =
        .ok (ps.map fun p => (objGet fs (toCamelCase p.name)).getD .undefined)) ∧
    (∀ (module : ModuleTable) (fld : GFieldDef) (input : JSValue)
        (args : List JSValue) (g : List JSValue → Except JSError JSValue)
        (v : JSValue),
      objGet module (toCamelCase fld.resolverName) = some g →
      projectArgs input fld.resolverParams = .ok args →
      g args = .ok v →
      resolveField module fld input = .ok v) := by
  refine ⟨?_, ?_, ?_, ?_⟩
  · intro fuel types name params st t st' hwf hnd h
    simp only [createInputType] at h
    cases hbp : buildInputParams fuel types params [] st with
    | error e =>
      simp only [hbp] at h
      exact Except.noConfusion h
    | ok q =>
      obtain ⟨flds, st₁⟩ := q
      simp only [hbp, BuildState.alloc] at h
      obtain ⟨rfl, rfl⟩ := ok_pair_inj h
      obtain ⟨ents, hflds, hnames, hheap⟩ := buildInputParams_spec fuel types
        params [] st flds st₁ hwf (by simpa using hnd) hbp
      rw [List.nil_append] at hflds
      subst hflds
      refine ⟨flds, ?_, hnames, ?_⟩
      · simp only [heapObj]
        exact getElem?_append_length st₁.heap _
      · intro e he
        obtain ⟨g, hg⟩ := hheap e he
        exact ⟨g, heapObj_extends (heapExtends_alloc st₁ _) hg⟩
  · intro fuel types name func st fld st' h
    simp only [bindFunctionExport] at h
    cases hci : createInputType fuel types name func.params st with
    | error e =>
      simp only [hci] at h
      exact Except.noConfusion h
    | ok q =>
      obtain ⟨it, st₁⟩ := q
      simp only [hci] at h
      cases hfr : func.result with
      | none =>
        simp only [hfr] at h
        obtain ⟨hfld, rfl⟩ := ok_pair_inj h
        subst hfld
        exact ⟨rfl, rfl, st₁, rfl, .inl ⟨rfl, rfl, rfl⟩⟩
      | some rty =>
        simp only [hfr] at h
        cases hco : convertWitTypeToGraphQLOutput fuel types rty st₁ with
        | error e =>
          simp only [hco] at h
          exact Except.noConfusion h
        | ok q2 =>
          obtain ⟨rt, st₂⟩ := q2
          simp only [hco] at h
          obtain ⟨hfld, rfl⟩ := ok_pair_inj h
          subst hfld
          exact ⟨rfl, rfl, st₁, rfl, .inr ⟨rty, rfl, hco⟩⟩
  · intro fs ps
    exact projectArgs_obj fs ps
  · intro module fld input args g v hlookup hargs hok
    simp only [resolveField, hargs, moduleCall, hlookup, hok]

/-- Witness for C4: the `reverse` component —
`reverse: func(str: string) -> string` — bound to a native function
returning `"olleh"`. -/
theorem function_binder_spec_witness :
    (∃ ents, heapObj reverseInputState (.ref 1) =
        some (.inputObjectType (toPascalCase "reverse" ++ "Input") ents) ∧
      ents.map Prod.fst =
        reverseFunc.params.map (fun p => toCamelCase p.name) ∧
      ∀ e ∈ ents, ∃ g,
        heapObj reverseInputState e.2 = some (.nonNullType g)) ∧
    (reverseFieldDef.resolverName = "reverse" ∧
      reverseFieldDef.resolverParams = reverseFunc.params ∧
      ∃ st₁, createInputType 10 [] "reverse" reverseFunc.params
          BuildState.init = .ok (reverseFieldDef.inputType, st₁) ∧
        ((reverseFunc.result = none ∧ reverseFieldDef.type = .gBoolean ∧
            reverseInputState = st₁) ∨
         (∃ rty, reverseFunc.result = some rty ∧
           convertWitTypeToGraphQLOutput 10 [] rty st₁ =
             .ok (reverseFieldDef.type, reverseInputState)))) ∧
    (projectArgs (.obj [("str", .str "hello")]) reverseFunc.params =
      .ok (reverseFunc.params.map fun p =>
        (objGet [("str", JSValue.str "hello")]
          (toCamelCase p.name)).getD .undefined)) ∧
    (resolveField [("reverse", fun _ => .ok (.str "olleh"))]
      reverseFieldDef (.obj [("str", .str "hello")]) = .ok (.str "olleh")) :=
  ⟨function_binder_spec.1 10 [] "reverse" reverseFunc.params
      BuildState.init (.ref 1) reverseInputState
      (cachesWellFormed_init []) (by decide) rfl,
   function_binder_spec.2.1 10 [] "reverse" reverseFunc BuildState.init
      reverseFieldDef reverseInputState rfl,
   function_binder_spec.2.2.1 [("str", JSValue.str "hello")]
      reverseFunc.params,
   function_binder_spec.2.2.2 [("reverse", fun _ => .ok (.str "olleh"))]
      reverseFieldDef (.obj [("str", .str "hello")]) [.str "hello"]
      (fun _ => .ok (.str "olleh")) (.str "olleh") rfl rfl rfl⟩

/-! ## C10: the schema consumes only the first world's function exports -/

/-- Counterexample to C10 as stated.  The two distinct function exports
`fo-obar` and `foObar` of the (first) world collide after the casing
transform (`toCamelCase "fo-obar" = toCamelCase "foObar" = "foObar"`), so
the later field assignment overwrites the earlier one: the build succeeds
with a single root field, not one field per function export. -/
theorem colliding_export_names_merge_fields :
    (createGraphQLSchema 10 collideResolved).map
      (fun s => s.queryFields.map Prod.fst) = .ok ["foObar"] ∧
    collideResolved.worlds.map
      (fun w => (functionExports w.exports).length) = [2] :=
  ⟨rfl, rfl⟩

theorem processExports_keys (fuel : Nat) (types : List TypeDef) :
    ∀ (exports : List (String × WorldItem))
      (acc : List (String × GFieldDef)) (st : BuildState)
      (flds : List (String × GFieldDef)) (st' : BuildState),
      processExports fuel types exports acc st = .ok (flds, st') →
      ((acc.map Prod.fst).Nodup → (flds.map Prod.fst).Nodup) ∧
      (∀ k, k ∈ flds.map Prod.fst ↔ k ∈ acc.map Prod.fst ∨
        ∃ nf ∈ functionExports exports, toCamelCase nf.1 = k) := by
  intro exports
  induction exports with
  | nil =>
    intro acc st flds st' h
    obtain ⟨rfl, rfl⟩ := ok_pair_inj h
    refine ⟨id, fun k => ?_⟩
    simp [functionExports]
  | cons e rest ih =>
    intro acc st flds st' h
    obtain ⟨n, it⟩ := e
    cases it with
    | function f =>
      simp only [processExports] at h
      cases hbf : bindFunctionExport fuel types n f st with
      | error er =>
        simp only [hbf] at h
        exact Except.noConfusion h
      | ok q =>
        obtain ⟨fld, st₁⟩ := q
        simp only [hbf] at h
        obtain ⟨hnd, hmem⟩ := ih _ _ flds st' h
        constructor
        · intro hacnd
          apply hnd
          rw [objInsert_keys]
          by_cases hk : toCamelCase n ∈ acc.map Prod.fst
          · rw [if_pos hk]
            exact hacnd
          · rw [if_neg hk]
            simp [List.nodup_append, hacnd, hk]
        · intro k
          rw [hmem k, mem_objInsert_keys]
          constructor
          · rintro ((rfl | hacc) | ⟨nf, hnf, hcm⟩)
            · exact .inr ⟨(n, f), by simp [functionExports], rfl⟩
            · exact .inl hacc
            · exact .inr ⟨nf, List.mem_cons_of_mem _ hnf, hcm⟩
          · rintro (hacc | ⟨nf, hnf, hcm⟩)
            · exact .inl (.inr hacc)
            · rcases List.mem_cons.mp hnf with rfl | hnf'
              · exact .inl (.inl hcm.symm)
              · exact .inr ⟨nf, hnf', hcm⟩
    | interface n2 =>
      simp only [processExports] at h
      obtain ⟨hnd, hmem⟩ := ih _ _ flds st' h
      exact ⟨hnd, hmem⟩
    | type t0 =>
      simp only [processExports] at h
      obtain ⟨hnd, hmem⟩ := ih _ _ flds st' h
      exact ⟨hnd, hmem⟩

/-- C10 (amended).  The schema build consumes only the first world: the
result depends on nothing but the type graph and `worlds[0]`, so exports of
other worlds contribute no fields; the root query type contains exactly one
field per *distinct casing-transformed* function-export name of the first
world — a name is a root field exactly when some function export
camel-cases to it, the field keys are duplicate-free, and when two function
exports' names collide after the transform the later export's field
overwrites the earlier one — and non-function exports contribute no
fields. -/
theorem schema_fields_from_first_world_functions :
    (∀ (fuel : Nat) (r1 r2 : Resolved), r1.types = r2.types →
      r1.worlds[0]? = r2.worlds[0]? →
      createGraphQLSchema fuel r1 = createGraphQLSchema fuel r2) ∧
    (∀ (fuel : Nat) (resolved : Resolved) (w : World) (s : GraphQLSchema),
      resolved.worlds[0]? = some w →
      createGraphQLSchema fuel resolved = .ok s →
      (s.queryFields.map Prod.fst).Nodup ∧
      ∀ k, k ∈ s.queryFields.map Prod.fst ↔
        ∃ nf ∈ functionExports w.exports, toCamelCase nf.1 = k) := by
  constructor
  · intro fuel r1 r2 ht hw
    simp only [createGraphQLSchema, ht, hw]
  · intro fuel resolved w s hw h
    simp only [createGraphQLSchema, hw] at h
    cases hpe : processExports fuel resolved.types w.exports [] .init with
    | error e =>
      simp only [hpe] at h
      exact Except.noConfusion h
    | ok q =>
      obtain ⟨flds, st'⟩ := q
      simp only [hpe] at h
      have hs : s = { queryFields := flds, finalState := st' } := by
        injection h with h'
        exact h'.symm
      subst hs
      obtain ⟨hnd, hmem⟩ := processExports_keys fuel resolved.types
        w.exports [] .init flds st' hpe
      refine ⟨hnd (by simp), fun k => ?_⟩
      rw [hmem k]
      simp

/-- Witness for the amended C10: appending a second world to the `reverse`
component does not change the schema, and the built schema's field keys are
duplicate-free with `reverse` a key exactly because a function export
camel-cases to it. -/
theorem schema_fields_from_first_world_functions_witness :
    createGraphQLSchema 10 reverseResolved =
      createGraphQLSchema 10 reverseTwoWorlds ∧
    (reverseSchemaBuilt.queryFields.map Prod.fst).Nodup ∧
    ("reverse" ∈ reverseSchemaBuilt.queryFields.map Prod.fst ↔
      ∃ nf ∈ functionExports reverseWorld.exports,
        toCamelCase nf.1 = "reverse") :=
  ⟨schema_fields_from_first_world_functions.1 10 reverseResolved
      reverseTwoWorlds rfl rfl,
   (schema_fields_from_first_world_functions.2 10 reverseResolved
      reverseWorld reverseSchemaBuilt rfl rfl).1,
   (schema_fields_from_first_world_functions.2 10 reverseResolved
      reverseWorld reverseSchemaBuilt rfl rfl).2 "reverse"⟩

end Slapql
